import Mathlib

/-!
Verification of the tsp-rust repository: a shallow embedding of the
Held-Karp branch-and-bound TSP solver (crates/tsp-solvers/src/held_karp_mod),
its distance / fixed-point arithmetic (crates/tsp-core), and the relevant
parts of the TSPLIB95 parser (crates/tsp-parser), together with proofs and
refutations of the specification claims.

Machine integers: the source works on Rust `i32` values (`Distance`,
`ScaledDistance` are newtypes over `i32`).  We model an `i32` as an `Int`
together with explicit two's-complement wrapping (`wrap32`) on every
arithmetic operation, which is the release-build semantics of Rust
integer arithmetic.  Rust `/` on `i32` truncates towards zero and is
modelled by `Int.tdiv`; an arithmetic right shift is a floor division.

`Vec`/slice indexing is modelled with `List.getD`/`List.set`; all theorems
about executions only ever touch in-range indices, where these agree with
the source exactly.

General recursion (the branch-and-bound recursion of `explore_node`, which
the source does not bound) is modelled with an explicit fuel parameter;
every property proved about it is proved for all fuel values, and concrete
executions in witnesses use enough fuel that the fuel-exhaustion branch is
never taken.
-/

/-! ## Two's-complement 32-bit arithmetic -/

def I32MIN : Int := -(2 ^ 31)

def I32MAX : Int := 2 ^ 31 - 1

/-- Wrap an integer into the `i32` range `[-2^31, 2^31)`. -/
def wrap32 (x : Int) : Int := (x + 2 ^ 31) % 2 ^ 32 - 2 ^ 31

/-- Rust `i32` addition (release semantics: wrapping). -/
def add32 (a b : Int) : Int := wrap32 (a + b)

/-- Rust `i32` subtraction (release semantics: wrapping). -/
def sub32 (a b : Int) : Int := wrap32 (a - b)

/-- Rust `i32` multiplication (release semantics: wrapping). -/
def mul32 (a b : Int) : Int := wrap32 (a * b)

/-! ## Distance and ScaledDistance
(crates/tsp-core/src/instance/edge/distance): `Distance` and `ScaledDistance`
are `i32` newtypes; `ScaledDistance` is a Q27.5 fixed point value with
`FIXED_POINT_FRACTIONAL_BITS = 5`. -/

/-- `Distance::MAX = i32::MAX >> 5` (arithmetic shift of a positive value). -/
def Distance.MAX : Int := I32MAX / 32

/-- `Distance::MIN = i32::MIN + (1 << 5)`. -/
def Distance.MIN : Int := I32MIN + 32

/-- `ScaledDistance::MAX = i32::MAX`. -/
def ScaledDistance.MAX : Int := I32MAX

/-- `ScaledDistance::MIN = i32::MIN`. -/
def ScaledDistance.MIN : Int := I32MIN

/-- `ScaledDistance::from_distance`: `value.0 << 5` on `i32` (bits above the
sign bit wrap away). -/
def ScaledDistance.from_distance (d : Int) : Int := wrap32 (d * 32)

/-- `ScaledDistance::to_distance`: arithmetic right shift by 5, i.e. floor
division by 32. -/
def ScaledDistance.to_distance (s : Int) : Int := Int.fdiv s 32

/-- `ScaledDistance::to_distance_rounded_up`: `(self.0 + (1 << 5) - 1) >> 5`
with the additions performed on `i32`. -/
def ScaledDistance.to_distance_rounded_up (s : Int) : Int :=
  Int.fdiv (sub32 (add32 s 32) 1) 32

/-! ## Edge states, edges, tours (tsp-core and held_karp_mod/mod.rs) -/

/-- `EdgeState` of held_karp_mod/mod.rs; `Available` is the default /
initial state. -/
inductive EdgeState where
  | Available
  | Excluded
  | Fixed
deriving DecidableEq, Repr, Inhabited

/-- `UnEdge { from, to }` (tsp-core).  `from` is a Lean keyword, so the
fields are called `efrom`/`eto`.  The source's `PartialEq` compares the
unordered pair; we keep structural equality and state unorderedness
explicitly where needed. -/
structure UnEdge where
  efrom : Nat
  eto : Nat
deriving DecidableEq, Repr

/-- `UnTour { edges, cost }` (tsp-core). -/
structure UnTour where
  edges : List UnEdge
  cost : Int
deriving DecidableEq, Repr

/-! ## EdgeDataMatrix (crates/tsp-core/src/instance/edge/data.rs)
Row-major full matrix: entry `(from, to)` lives at flat index
`from * dimension + to`. -/

structure EdgeDataMatrix (α : Type) where
  data : List α
  dimension : Nat
deriving Repr, DecidableEq

/-- `EdgeDataMatrix::get_data`. -/
def EdgeDataMatrix.get_data [Inhabited α] (m : EdgeDataMatrix α) (f t : Nat) : α :=
  m.data.getD (f * m.dimension + t) default

/-- `EdgeDataMatrix::get_data_to_seq` (same flat access as `get_data`). -/
def EdgeDataMatrix.get_data_to_seq [Inhabited α] (m : EdgeDataMatrix α) (f t : Nat) : α :=
  m.data.getD (f * m.dimension + t) default

/-- Single-entry store at `(from, to)` (the `set_data` of the
`held_karp_mod` matrix module; the symmetric variant calls it twice). -/
def EdgeDataMatrix.set_data (m : EdgeDataMatrix α) (f t : Nat) (v : α) : EdgeDataMatrix α :=
  { m with data := m.data.set (f * m.dimension + t) v }

/-- `set_data_symmetric`: store at `(from, to)` and `(to, from)`. -/
def EdgeDataMatrix.set_data_symmetric (m : EdgeDataMatrix α) (f t : Nat) (v : α) :
    EdgeDataMatrix α :=
  (m.set_data f t v).set_data t f v

/-- View of a matrix with the zero-th row removed
(`EdgeDataMatrixZeroRemoved`): its `data` is the original data minus the
first `dimension` entries. -/
structure EdgeDataMatrixZeroRemoved (α : Type) where
  data : List α
  dimension : Nat

/-- `split_first_row`: the zero row (first `dimension` entries) plus the
zero-removed view of the rest. -/
def split_first_row (m : EdgeDataMatrix α) : List α × EdgeDataMatrixZeroRemoved α :=
  (m.data.take m.dimension, ⟨m.data.drop m.dimension, m.dimension⟩)

/-- `dimension_adjusted`: `n - 1` for an underlying dimension `n`. -/
def EdgeDataMatrixZeroRemoved.dimension_adjusted (m : EdgeDataMatrixZeroRemoved α) : Nat :=
  m.dimension - 1

/-- Element `t` of `get_adjacency_list(from)` of the zero-removed view:
the slice starts at `(from - 1) * dimension`, so this is the original
matrix entry `(from, t)`. -/
def EdgeDataMatrixZeroRemoved.adj [Inhabited α] (m : EdgeDataMatrixZeroRemoved α)
    (f t : Nat) : α :=
  m.data.getD ((f - 1) * m.dimension + t) default

/-- `Vec::swap_remove(i)`: replace the element at `i` by the last element
and shorten by one. -/
def swapRemove [Inhabited α] (l : List α) (i : Nat) : List α :=
  (l.set i (l.getD (l.length - 1) default)).take (l.length - 1)

/-! ## min_spanning_tree (held_karp_mod/trees.rs)
Prim's algorithm on nodes `1 .. n-1` (`n` = full dimension), honouring
edge states.  The inner `for (index, next) in remaining_nodes` scan is
`mstScan`; the outer `for _ in 0..(number_of_nodes_in_tree - 1)` loop is
`mstLoop`. -/

/-- Accumulator of the inner scan over `remaining_nodes`. -/
structure ScanAcc where
  bestCost : List Int
  bestPred : List Nat
  cheapestEdge : Int
  cheapestNode : Option (Nat × Nat)
deriving Repr, DecidableEq

/-- One pass of the inner scan of `min_spanning_tree` over the remaining
nodes (with their running enumeration index).  `none` models the
`return None` on a Fixed edge to a node whose best cost is already
`ScaledDistance::MIN`.  An `Excluded` edge `continue`s, skipping the
cheapest-node check for that element. -/
def mstScanGo (sdz : EdgeDataMatrixZeroRemoved Int) (esz : EdgeDataMatrixZeroRemoved EdgeState)
    (penalties : List Int) (curr : Nat) :
    List Nat → Nat → ScanAcc → Option ScanAcc
  | [], _, acc => some acc
  | next :: rest, idx, acc =>
    match esz.adj curr next with
    | .Excluded => mstScanGo sdz esz penalties curr rest (idx + 1) acc
    | .Available =>
      let distance := sdz.adj curr next
      let adjusted := sub32 (sub32 distance (penalties.getD curr 0)) (penalties.getD next 0)
      let acc :=
        if adjusted < acc.bestCost.getD next 0 then
          { acc with bestCost := acc.bestCost.set next adjusted,
                     bestPred := acc.bestPred.set next curr }
        else acc
      let acc :=
        if acc.bestCost.getD next 0 < acc.cheapestEdge then
          { acc with cheapestEdge := acc.bestCost.getD next 0,
                     cheapestNode := some (idx, next) }
        else acc
      mstScanGo sdz esz penalties curr rest (idx + 1) acc
    | .Fixed =>
      if acc.bestCost.getD next 0 = ScaledDistance.MIN then
        none
      else
        let acc := { acc with bestCost := acc.bestCost.set next ScaledDistance.MIN,
                              bestPred := acc.bestPred.set next curr }
        let acc :=
          if acc.bestCost.getD next 0 < acc.cheapestEdge then
            { acc with cheapestEdge := acc.bestCost.getD next 0,
                       cheapestNode := some (idx, next) }
          else acc
        mstScanGo sdz esz penalties curr rest (idx + 1) acc

/-- The outer Prim loop of `min_spanning_tree`: `k` iterations remain;
each one scans, then commits the cheapest node (or fails). -/
def mstLoop (sdz : EdgeDataMatrixZeroRemoved Int) (esz : EdgeDataMatrixZeroRemoved EdgeState)
    (penalties : List Int) :
    Nat → List Nat → List Int → List Nat → Nat → List UnEdge → Option (List UnEdge)
  | 0, _, _, _, _, tree => some tree
  | k + 1, remaining, bestCost, bestPred, curr, tree =>
    match mstScanGo sdz esz penalties curr remaining 0
        ⟨bestCost, bestPred, ScaledDistance.MAX, none⟩ with
    | none => none
    | some acc =>
      match acc.cheapestNode with
      | none => none
      | some (index, cheapest) =>
        mstLoop sdz esz penalties k (swapRemove remaining index) acc.bestCost acc.bestPred
          cheapest (tree ++ [⟨acc.bestPred.getD cheapest 0, cheapest⟩])

/-- `min_spanning_tree` (held_karp_mod/trees.rs): Prim's algorithm over the
zero-removed views, starting from node 1 with `remaining = [2, ..., n-1]`,
`bestCost` all `ScaledDistance::MAX` and `bestPred` all the sentinel
`number_of_nodes_in_tree + 1`. -/
def min_spanning_tree (distances_scaled : EdgeDataMatrixZeroRemoved Int)
    (edge_states : EdgeDataMatrixZeroRemoved EdgeState) (penalties : List Int) :
    Option (List UnEdge) :=
  let number_of_nodes_in_tree := distances_scaled.dimension_adjusted
  let remaining := List.range' 2 (number_of_nodes_in_tree - 1)
  mstLoop distances_scaled edge_states penalties (number_of_nodes_in_tree - 1) remaining
    (List.replicate (number_of_nodes_in_tree + 1) ScaledDistance.MAX)
    (List.replicate (number_of_nodes_in_tree + 1) (number_of_nodes_in_tree + 1)) 1 []

/-! ## min_one_tree (held_karp_mod/trees.rs)
The spanning tree over nodes `1..n-1` plus the two cheapest edges from
node 0, scanned over the first row in index order. -/

/-- Accumulator of the scan over node 0's neighbours, upholding
`dist_cheapest_edge_a ≤ dist_cheapest_edge_b`. -/
structure ZeroScanAcc where
  dist_cheapest_edge_a : Int
  dist_cheapest_edge_b : Int
  cheapest_neighbor_a : Option Nat
  cheapest_neighbor_b : Option Nat
deriving Repr, DecidableEq

/-- The scan over node 0's neighbours (`(node_index, distance)` pairs of
the zero row, starting from index 1).  The comparisons use the scaled
distance of the row directly - no penalties are subtracted here. -/
def one_tree_scan (edge_states_zero : List EdgeState) :
    List (Nat × Int) → ZeroScanAcc → Option ZeroScanAcc
  | [], acc => some acc
  | (node_index, distance) :: rest, acc =>
    match edge_states_zero.getD node_index default with
    | .Excluded => one_tree_scan edge_states_zero rest acc
    | .Available =>
      if distance < acc.dist_cheapest_edge_a then
        one_tree_scan edge_states_zero rest
          ⟨distance, acc.dist_cheapest_edge_a, some node_index, acc.cheapest_neighbor_a⟩
      else if distance < acc.dist_cheapest_edge_b then
        one_tree_scan edge_states_zero rest
          { acc with dist_cheapest_edge_b := distance, cheapest_neighbor_b := some node_index }
      else
        one_tree_scan edge_states_zero rest acc
    | .Fixed =>
      if acc.dist_cheapest_edge_b = ScaledDistance.MIN then
        none
      else
        one_tree_scan edge_states_zero rest
          ⟨ScaledDistance.MIN, acc.dist_cheapest_edge_a, some node_index,
            acc.cheapest_neighbor_a⟩

/-- `min_one_tree` (held_karp_mod/trees.rs).  The final `match` mirrors the
source: if `cheapest_neighbor_b` exists then `cheapest_neighbor_a` is
`expect`ed (the `(some, none)` case is unreachable; the source would
panic there and we return `none`). -/
def min_one_tree (distances_scaled : EdgeDataMatrix Int)
    (edge_states : EdgeDataMatrix EdgeState) (penalties : List Int) :
    Option (List UnEdge) :=
  let ds := split_first_row distances_scaled
  let es := split_first_row edge_states
  match min_spanning_tree ds.2 es.2 penalties with
  | none => none
  | some tree =>
    match one_tree_scan es.1 (ds.1.enum.drop 1)
        ⟨ScaledDistance.MAX, ScaledDistance.MAX, none, none⟩ with
    | none => none
    | some acc =>
      match acc.cheapest_neighbor_b, acc.cheapest_neighbor_a with
      | some neighbor_b, some neighbor_a => some (tree ++ [⟨0, neighbor_a⟩, ⟨0, neighbor_b⟩])
      | some _, none => none
      | none, _ => none

/-! ## held_karp_mod/mod.rs: the lower-bound loop, branching, and driver -/

/-- `INITIAL_MAX_ITERATIONS` (root node of the branch-and-bound tree). -/
def INITIAL_MAX_ITERATIONS : Nat := 1000

/-- `MAX_ITERATIONS` (non-root nodes). -/
def MAX_ITERATIONS : Nat := 10

/-- Exact (unnormalised) fractions.  The source drives the subgradient
step in `f64`; the embedding computes the same values as exact fractions,
which agree with `f64` whenever the float computation is exact (as in
every concrete execution appearing in this development). -/
structure Frac where
  num : Int
  den : Int
deriving DecidableEq, Repr

/-- Embed an integer. -/
def Frac.ofInt (n : Int) : Frac := ⟨n, 1⟩

/-- Fraction multiplication. -/
def Frac.mul (a b : Frac) : Frac := ⟨a.num * b.num, a.den * b.den⟩

/-- Fraction division. -/
def Frac.div (a b : Frac) : Frac := ⟨a.num * b.den, a.den * b.num⟩

/-- Truncation towards zero. -/
def Frac.trunc (q : Frac) : Int := Int.tdiv q.num q.den

/-- `INITIAL_ALPHA = 2.0`. -/
def INITIAL_ALPHA : Frac := ⟨2, 1⟩

/-- `INITIAL_BETA = 0.99`. -/
def INITIAL_BETA : Frac := ⟨99, 100⟩

/-- `BETA = 0.9`. -/
def BETA : Frac := ⟨9, 10⟩

/-- Result of `held_karp_lower_bound`. -/
inductive LowerBoundOutput where
  | LowerBound (lb : Int) (tree : List UnEdge)
  | Tour (tour : UnTour)
deriving DecidableEq, Repr

/-- `node_penalties.iter().sum::<ScaledDistance>()`: left fold of `i32`
addition from zero. -/
def scaledSum (l : List Int) : Int := l.foldl add32 0

/-- `one_tree.iter().map(|e| distances.get_data(..)).sum::<Distance>()`:
the raw (unscaled) cost of a tree, folded with `i32` addition. -/
def rawTreeCost (distances : EdgeDataMatrix Int) (tree : List UnEdge) : Int :=
  tree.foldl (fun acc e => add32 acc (distances.get_data e.efrom e.eto)) 0

/-- The cost of a 1-tree with penalties (`one_tree_cost` in
`held_karp_lower_bound`): `2 * S` (with `S` the penalty sum computed once
at loop entry) plus, per edge, `+ scaledDist - pi[from] - pi[to]`, all on
`i32`. -/
def one_tree_cost_calc (scaled_distances : EdgeDataMatrix Int) (penalties : List Int)
    (penalty_sum : Int) (tree : List UnEdge) : Int :=
  tree.foldl
    (fun acc e =>
      sub32 (sub32 (add32 acc (scaled_distances.get_data e.efrom e.eto))
        (penalties.getD e.efrom 0)) (penalties.getD e.eto 0))
    (mul32 2 penalty_sum)

/-- The degree-deviation array `deg`: start at 2 everywhere and subtract 1
for each edge endpoint. -/
def degList (dimension : Nat) (tree : List UnEdge) : List Int :=
  tree.foldl
    (fun deg e =>
      let deg := deg.set e.efrom (sub32 (deg.getD e.efrom 0) 1)
      deg.set e.eto (sub32 (deg.getD e.eto 0) 1))
    (List.replicate dimension 2)

/-- `deg.iter().map(|&d| d * d).sum::<i32>()`. -/
def degSquareSum (deg : List Int) : Int :=
  deg.foldl (fun acc d => add32 acc (mul32 d d)) 0

/-- Rust `as i32` cast from `f64`: truncate towards zero, saturating at
the `i32` bounds. -/
def f64_as_i32 (q : Frac) : Int :=
  max I32MIN (min I32MAX q.trunc)

/-- One pass of the `loop` of `held_karp_lower_bound` in the case where
the iteration budget is exhausted after this pass
(`iter_count + 1 >= max_iterations`): compute the 1-tree, the Lagrangian
cost, possibly prune, possibly return a tour, otherwise break with the
rounded-up best lower bound.  `alpha` plays no role in this pass. -/
def hklbLast (distances scaled_distances : EdgeDataMatrix Int)
    (edge_states : EdgeDataMatrix EdgeState) (scaled_upper_bound : Int)
    (node_penalty_sum : Int) (penalties : List Int) (best_lower_bound : Int) :
    Option LowerBoundOutput × List Int :=
  match min_one_tree scaled_distances edge_states penalties with
  | none => (none, penalties)
  | some one_tree =>
    let one_tree_cost :=
      one_tree_cost_calc scaled_distances penalties node_penalty_sum one_tree
    let best_lower_bound :=
      if best_lower_bound < one_tree_cost then one_tree_cost else best_lower_bound
    if scaled_upper_bound ≤ one_tree_cost then
      (some (.LowerBound (ScaledDistance.to_distance_rounded_up best_lower_bound) one_tree),
        penalties)
    else
      let deg := degList distances.dimension one_tree
      let square_sum := degSquareSum deg
      if square_sum = 0 then
        (some (.Tour ⟨one_tree, rawTreeCost distances one_tree⟩), penalties)
      else
        (some (.LowerBound (ScaledDistance.to_distance_rounded_up best_lower_bound) one_tree),
          penalties)

/-- The `loop` of `held_karp_lower_bound`.  `fuel` is
`max_iterations - iter_count`; the source's post-increment check
`iter_count >= max_iterations` fires exactly when `fuel ≤ 1` (both these
cases are `hklbLast`), and each `continue` decrements `fuel`.  The loop
returns the final output together with the current penalties (the source
mutates `node_penalties` in place and never restores them). -/
def hklbAux (distances scaled_distances : EdgeDataMatrix Int)
    (edge_states : EdgeDataMatrix EdgeState) (scaled_upper_bound : Int)
    (node_penalty_sum : Int) (beta : Frac) :
    Nat → List Int → Frac → Int → Option LowerBoundOutput × List Int
  | 0, penalties, _, best_lower_bound =>
    hklbLast distances scaled_distances edge_states scaled_upper_bound node_penalty_sum
      penalties best_lower_bound
  | 1, penalties, _, best_lower_bound =>
    hklbLast distances scaled_distances edge_states scaled_upper_bound node_penalty_sum
      penalties best_lower_bound
  | fuelRest + 2, penalties, alpha, best_lower_bound =>
    match min_one_tree scaled_distances edge_states penalties with
    | none => (none, penalties)
    | some one_tree =>
      let one_tree_cost :=
        one_tree_cost_calc scaled_distances penalties node_penalty_sum one_tree
      let best_lower_bound :=
        if best_lower_bound < one_tree_cost then one_tree_cost else best_lower_bound
      if scaled_upper_bound ≤ one_tree_cost then
        (some (.LowerBound (ScaledDistance.to_distance_rounded_up best_lower_bound) one_tree),
          penalties)
      else
        let deg := degList distances.dimension one_tree
        let square_sum := degSquareSum deg
        if square_sum = 0 then
          (some (.Tour ⟨one_tree, rawTreeCost distances one_tree⟩), penalties)
        else
          let step_size := f64_as_i32
            (alpha.mul ((Frac.ofInt (sub32 scaled_upper_bound one_tree_cost)).div
              (Frac.ofInt square_sum)))
          if step_size ≤ 3 then
            (some (.LowerBound (ScaledDistance.to_distance_rounded_up best_lower_bound)
              one_tree), penalties)
          else
            hklbAux distances scaled_distances edge_states scaled_upper_bound
              node_penalty_sum beta (fuelRest + 1)
              (List.zipWith (fun p d => add32 p (mul32 step_size d)) penalties deg)
              (alpha.mul beta) best_lower_bound

/-- `held_karp_lower_bound` (held_karp_mod/mod.rs): scales the upper
bound, computes the penalty sum once, and runs the subgradient loop with
`INITIAL_ALPHA` and best lower bound `ScaledDistance::MIN`. -/
def held_karp_lower_bound (distances scaled_distances : EdgeDataMatrix Int)
    (edge_states : EdgeDataMatrix EdgeState) (node_penalties : List Int) (upper_bound : Int)
    (max_iterations : Nat) (beta : Frac) : Option LowerBoundOutput × List Int :=
  hklbAux distances scaled_distances edge_states (ScaledDistance.from_distance upper_bound)
    (scaledSum node_penalties) beta max_iterations node_penalties INITIAL_ALPHA
    ScaledDistance.MIN

/-- `edge_to_branch_on`: among Available edges of the 1-tree, the first
one attaining the minimal reduced scaled distance. -/
def edge_to_branch_on (scaled_distances : EdgeDataMatrix Int)
    (edge_states : EdgeDataMatrix EdgeState) (node_penalties : List Int)
    (one_tree : List UnEdge) : Option UnEdge :=
  (one_tree.foldl
    (fun (acc : Option UnEdge × Int) e =>
      if edge_states.get_data e.efrom e.eto = .Available then
        let reduced_distance :=
          sub32 (sub32 (scaled_distances.get_data e.efrom e.eto)
            (node_penalties.getD e.efrom 0)) (node_penalties.getD e.eto 0)
        if reduced_distance < acc.2 then (some e, reduced_distance) else acc
      else acc)
    (none, ScaledDistance.MAX)).1

/-- `initial_penalties` (held_karp_mod/mod.rs): for every pair
`to < from`, lower both `penalties[from]` and `penalties[to]` to the
scaled distance `(from, to)` if smaller; then halve everything with the
truncating `i32` division. -/
def initial_penalties (scaled_distances : EdgeDataMatrix Int) (dimension : Nat) : List Int :=
  let penalties :=
    (List.range dimension).foldl
      (fun pen f =>
        (List.range f).foldl
          (fun pen t =>
            let distance := scaled_distances.get_data_to_seq f t
            let pen := if distance < pen.getD f 0 then pen.set f distance else pen
            if distance < pen.getD t 0 then pen.set t distance else pen)
          pen)
      (List.replicate dimension ScaledDistance.MAX)
  penalties.map (fun p => Int.tdiv p 2)

/-- The mutable state threaded through `explore_node` (the source passes
`&mut` references; the embedding passes the record and returns the
updated one). -/
structure BBState where
  edge_states : EdgeDataMatrix EdgeState
  node_penalties : List Int
  fixed_degrees : List Nat
  upper_bound : Int
  best_tour : Option UnTour
  bb_counter : Nat
deriving DecidableEq, Repr

/-- `explore_node` (held_karp_mod/mod.rs): depth-first branch and bound.
`fuel` bounds the recursion depth (the source recursion is unbounded);
fuel exhaustion returns the state unchanged, and all stated properties
hold for every fuel. -/
def explore_node (distances scaled_distances : EdgeDataMatrix Int) :
    Nat → BBState → Option Nat → Nat → BBState
  | 0, st, _, _ => st
  | fuel + 1, st, bb_limit, depth =>
    let st := { st with bb_counter := st.bb_counter + 1 }
    if (match bb_limit with | some limit => decide (limit ≤ st.bb_counter) | none => false) then st
    else
      let mi := if depth = 0 then INITIAL_MAX_ITERATIONS else MAX_ITERATIONS
      let beta := if depth = 0 then INITIAL_BETA else BETA
      let res := held_karp_lower_bound distances scaled_distances st.edge_states
        st.node_penalties st.upper_bound mi beta
      let st := { st with node_penalties := res.2 }
      match res.1 with
      | none => st
      | some (.Tour tour) =>
        { st with upper_bound := tour.cost, best_tour := some tour }
      | some (.LowerBound lower_bound one_tree) =>
        if st.upper_bound ≤ lower_bound then st
        else
          match edge_to_branch_on scaled_distances st.edge_states st.node_penalties one_tree with
          | none => st
          | some branching_edge =>
            let st := { st with edge_states :=
              (st.edge_states.set_data_symmetric branching_edge.efrom branching_edge.eto
                EdgeState.Excluded) }
            let st := explore_node distances scaled_distances fuel st bb_limit (depth + 1)
            let st := { st with edge_states :=
              (st.edge_states.set_data_symmetric branching_edge.efrom branching_edge.eto
                EdgeState.Available) }
            if st.fixed_degrees.getD branching_edge.efrom 0 < 2 ∧
                st.fixed_degrees.getD branching_edge.eto 0 < 2 then
              let st := { st with
                edge_states := (st.edge_states.set_data_symmetric branching_edge.efrom
                  branching_edge.eto EdgeState.Fixed),
                fixed_degrees :=
                  let fd := st.fixed_degrees.set branching_edge.efrom
                    (st.fixed_degrees.getD branching_edge.efrom 0 + 1)
                  fd.set branching_edge.eto (fd.getD branching_edge.eto 0 + 1) }
              let st := explore_node distances scaled_distances fuel st bb_limit (depth + 1)
              let st := { st with edge_states :=
                (st.edge_states.set_data_symmetric branching_edge.efrom branching_edge.eto
                  EdgeState.Available) }
              { st with fixed_degrees :=
                  let fd := st.fixed_degrees.set branching_edge.efrom
                    (st.fixed_degrees.getD branching_edge.efrom 0 - 1)
                  fd.set branching_edge.eto (fd.getD branching_edge.eto 0 - 1) }
            else st

/-- The scaled-distances matrix built by `held_karp`: every entry mapped
through `ScaledDistance::from_distance`. -/
def scaledMatrix (distances : EdgeDataMatrix Int) : EdgeDataMatrix Int :=
  ⟨distances.data.map ScaledDistance.from_distance, distances.dimension⟩

/-- The identity tour `0 -> 1 -> ... -> n-1 -> 0` seeded by `held_karp`. -/
def identityTourEdges (n : Nat) : List UnEdge :=
  (List.range n).map (fun i => ⟨i, (i + 1) % n⟩)

/-- Its cost (`initial_upper_bound` accumulated with `i32` addition). -/
def identityTourCost (distances : EdgeDataMatrix Int) : Int :=
  (List.range distances.dimension).foldl
    (fun acc i => add32 acc (distances.get_data i ((i + 1) % distances.dimension))) 0

/-- `held_karp` (held_karp_mod/mod.rs): sets up edge states, scaled
distances, initial penalties, fixed degrees, the identity-tour seed, and
runs the root `explore_node`.  There is no dimension precondition check in
the source. -/
def held_karp (fuel : Nat) (distances : EdgeDataMatrix Int) : Option UnTour :=
  let edge_states : EdgeDataMatrix EdgeState :=
    ⟨List.replicate distances.data.length .Available, distances.dimension⟩
  let scaled_distances := scaledMatrix distances
  let node_penalties := initial_penalties scaled_distances distances.dimension
  let fixed_degrees := List.replicate distances.dimension 0
  let initial_upper_bound := identityTourCost distances
  let best_tour := some (⟨identityTourEdges distances.dimension, initial_upper_bound⟩ : UnTour)
  (explore_node distances scaled_distances fuel
    ⟨edge_states, node_penalties, fixed_degrees, initial_upper_bound, best_tour, 0⟩
    none 0).best_tour

/-! ## TSPLIB95 parser fragments (crates/tsp-parser) -/

/-- `ProblemType` (tsp-core/src/tsp_lib_spec.rs) - note that the enum has
a `CVRP` variant. -/
inductive ProblemType where
  | TSP
  | ATSP
  | SOP
  | HCP
  | CVRP
  | TOUR
deriving DecidableEq, Repr

/-- `MetaDataParseError` (tsp-parser/src/metadata/mod.rs). -/
inductive MetaDataParseError where
  | InvalidInput (s : String)
  | InvalidKeyword (s : String)
  | InvalidProblemType (s : String)
  | InvalidDimension (s : String)
  | InvalidCapacity (s : String)
  | InvalidEdgeWeightType (s : String)
  | InvalidEdgeWeightFormat (s : String)
  | InvalidEdgeDataFormat (s : String)
  | InvalidNodeCoordType (s : String)
  | InvalidDisplayDataType (s : String)
deriving DecidableEq, Repr

/-- `parse_problem_type` (tsp-parser/src/metadata/mod.rs).  The source
wraps the error into `ParserError` via `.into()`; we model the
`MetaDataParseError` payload. -/
def parse_problem_type (input : String) : Except MetaDataParseError ProblemType :=
  match input with
  | "TSP" => .ok .TSP
  | "ATSP" => .ok .ATSP
  | "SOP" => .ok .SOP
  | "HCP" => .ok .HCP
  | "TOUR" => .ok .TOUR
  | _ => .error (.InvalidProblemType input)

/-- Ascii whitespace, as recognised by `str::split_ascii_whitespace` and
the line handling (the instance files are ascii).  Text is modelled as
`List Char` so that everything reduces in the kernel. -/
def isWS (c : Char) : Bool :=
  c = ' ' || c = '\t' || c = '\n' || c = '\r' || c = '\x0c'

/-- Accumulator-based tokeniser for `str::split_ascii_whitespace`. -/
def tokensAux : List Char → List Char → List (List Char)
  | [], cur => if cur = [] then [] else [cur.reverse]
  | c :: rest, cur =>
    if isWS c then
      if cur = [] then tokensAux rest [] else cur.reverse :: tokensAux rest []
    else tokensAux rest (c :: cur)

/-- `str::split_ascii_whitespace`: maximal non-whitespace tokens. -/
def asciiTokens (s : List Char) : List (List Char) := tokensAux s []

/-- `str::trim` (the data lines are ascii, so trimming ascii whitespace
coincides with the source's Unicode trim). -/
def trimChars (s : List Char) : List Char :=
  ((s.dropWhile isWS).reverse.dropWhile isWS).reverse

/-- `is_float_data` (tsp-parser/src/data_section/mod.rs): sample the first
data line, skip the node index token, and test whether the x-coordinate
token contains a `'.'`.  The y token is not examined. -/
def is_float_data (first_line : List Char) : Bool :=
  ((asciiTokens first_line).getD 1 []).contains '.'

/-- `parse_line_to_2d_point`, parameterised by the two parsing modes
(`parse::<f64>` and `parse::<u64> as f64` in the source are abstracted as
the two functions `pf` and `pu`): skip the node index, then parse both
coordinate tokens with the mode chosen by `isFloat`. -/
def parse_line_to_2d_point {α : Type} (pf pu : List Char → α) (line_str : List Char)
    (isFloat : Bool) : α × α :=
  let parts := asciiTokens line_str
  let x_str := parts.getD 1 []
  let y_str := parts.getD 2 []
  if isFloat then (pf x_str, pf y_str) else (pu x_str, pu y_str)

/-- The line loop of `parse_2d_node_coord_section`: stop at `EOF` or an
empty (trimmed) line, otherwise parse each line with the flag. -/
def parse2dLines {α : Type} (pf pu : List Char → α) (isFloat : Bool) :
    List (List Char) → List (α × α)
  | [] => []
  | line :: rest =>
    let line_str := trimChars line
    if line_str = ['E', 'O', 'F'] ∨ line_str = [] then []
    else parse_line_to_2d_point pf pu line_str isFloat :: parse2dLines pf pu isFloat rest

/-- `parse_2d_node_coord_section` (tsp-parser/src/data_section/mod.rs):
sample the first line for the float/integer mode, then parse all lines
with that single mode.  The input is the list of newline-terminated lines
of the data section. -/
def parse_2d_node_coord_section {α : Type} (pf pu : List Char → α)
    (lines : List (List Char)) : List (α × α) :=
  parse2dLines pf pu (is_float_data (lines.headD [])) lines

/-- Modelled from the spec: the sampling predicate the specification
claims for the first data line - "if either coordinate contains a `.`".
This is the claimed behaviour, to be compared with `is_float_data`. -/
def spec_either_coordinate_has_dot (first_line : List Char) : Bool :=
  (((asciiTokens first_line).getD 1 []).contains '.') ||
    (((asciiTokens first_line).getD 2 []).contains '.')

/-! ## Concrete instances used in witnesses and counterexamples -/

/-- A 2-node instance (`n = 2 < 3`) with `d(0,1) = d(1,0) = 5`. -/
def twoNodeInstance : EdgeDataMatrix Int := ⟨[0, 5, 5, 0], 2⟩

/-- A 3-node instance with all off-diagonal distances 1. -/
def threeNodeInstance : EdgeDataMatrix Int := ⟨[0, 1, 1, 1, 0, 1, 1, 1, 0], 3⟩

/-- Its scaled matrix. -/
def threeNodeScaled : EdgeDataMatrix Int := scaledMatrix threeNodeInstance

/-- All-Available edge states for a 3-node instance. -/
def threeNodeStates : EdgeDataMatrix EdgeState := ⟨List.replicate 9 .Available, 3⟩

/-- The 1-tree the solver finds on `threeNodeInstance` with zero
penalties. -/
def threeNodeTree : List UnEdge := [⟨1, 2⟩, ⟨0, 1⟩, ⟨0, 2⟩]

/-- A 4-node "star" instance: node 1 is at distance 1 from everything,
all other distances are 100.  Used to exhibit a subgradient step that
changes the penalties. -/
def starInstance : EdgeDataMatrix Int :=
  ⟨[0, 1, 100, 100,
    1, 0, 1, 1,
    100, 1, 0, 100,
    100, 1, 100, 0], 4⟩

/-- Its scaled matrix. -/
def starScaled : EdgeDataMatrix Int := scaledMatrix starInstance

/-- All-Available edge states for a 4-node instance. -/
def fourNodeStates : EdgeDataMatrix EdgeState := ⟨List.replicate 16 .Available, 4⟩

/-- A branch-and-bound state for `starInstance`: zero penalties, zero
fixed degrees, the identity-tour upper bound 202. -/
def starState : BBState :=
  ⟨fourNodeStates, [0, 0, 0, 0], [0, 0, 0, 0], 202, some ⟨identityTourEdges 4, 202⟩, 0⟩

/-- A scaled 4-node distance matrix whose node-0 row is
`[_, 320, 640, 960]`; with a large penalty on node 3, the reduced
distance of edge `(0,3)` is far below that of `(0,2)`. -/
def rowPenaltyScaled : EdgeDataMatrix Int :=
  ⟨[0, 320, 640, 960,
    320, 0, 320, 320,
    640, 320, 0, 320,
    960, 320, 320, 0], 4⟩

/-- The penalties for the `rowPenaltyScaled` counterexample: node 3
carries penalty 100000. -/
def rowPenalties : List Int := [0, 0, 0, 100000]

/-- 5-node edge states whose `Fixed` edges form the triangle
`1 - 2 - 3 - 1`. -/
def fixedTriangleStates : EdgeDataMatrix EdgeState :=
  (((⟨List.replicate 25 .Available, 5⟩ : EdgeDataMatrix EdgeState).set_data_symmetric 1 2
    .Fixed).set_data_symmetric 2 3 .Fixed).set_data_symmetric 1 3 .Fixed

/-- An all-zero scaled 5-node distance matrix. -/
def zeroScaled5 : EdgeDataMatrix Int := ⟨List.replicate 25 (0 : Int), 5⟩

/-- Reachability fold: starting from a set of nodes, add both endpoints
of every edge that touches the set, in edge-list order.  Used to state
that the MST output spans (connects) its node set. -/
def reachF (edges : List UnEdge) (A : Finset ℕ) : Finset ℕ :=
  edges.foldl
    (fun A e => if e.efrom ∈ A ∨ e.eto ∈ A then insert e.eto (insert e.efrom A) else A) A

/-- The pairs `(from, to)` with `to < from < dim`, in the order the
double loop of `initial_penalties` visits them. -/
def lowerPairs (dim : Nat) : List (Nat × Nat) :=
  (List.range dim).flatMap (fun f => (List.range f).map (fun t => (f, t)))
/-- The edge-state matrix is symmetric: entry `(f, t)` equals entry
`(t, f)` for all node indices below the dimension.  `held_karp` builds a
symmetric state matrix and `set_data_symmetric` keeps it symmetric. -/
def symmStates (es : EdgeDataMatrix EdgeState) : Prop :=
  ∀ f ∈ List.range es.dimension, ∀ t ∈ List.range es.dimension,
    es.data.getD (f * es.dimension + t) default = es.data.getD (t * es.dimension + f) default

/-- `u` and `v` are consecutive (in either order) on the cycle `c`
(read cyclically). -/
def cycAdj (c : List Nat) (u v : Nat) : Prop :=
  ∃ i ∈ List.range c.length,
    (c.getD i 0 = u ∧ c.getD ((i + 1) % c.length) 0 = v) ∨
    (c.getD i 0 = v ∧ c.getD ((i + 1) % c.length) 0 = u)

/-- The list `c` is a cycle of at least three distinct nodes of
`1 .. N` all of whose consecutive edges are `Fixed` (in both
directions) in the zero-removed edge-state view. -/
def fixedCycle (esz : EdgeDataMatrixZeroRemoved EdgeState) (N : Nat) (c : List Nat) : Prop :=
  c.Nodup ∧ 3 ≤ c.length ∧ (∀ x ∈ c, 1 ≤ x ∧ x ≤ N) ∧
  ∀ i ∈ List.range c.length,
    esz.adj (c.getD i 0) (c.getD ((i + 1) % c.length) 0) = EdgeState.Fixed ∧
    esz.adj (c.getD ((i + 1) % c.length) 0) (c.getD i 0) = EdgeState.Fixed

theorem wrap32_lb (x : Int) : I32MIN ≤ wrap32 x := by
  have h := Int.emod_nonneg (x + 2 ^ 31) (by norm_num : (2 ^ 32 : Int) ≠ 0)
  simp only [wrap32, I32MIN]
  omega

theorem wrap32_ub (x : Int) : wrap32 x ≤ I32MAX := by
  have h := Int.emod_lt_of_pos (x + 2 ^ 31) (by norm_num : (0 : Int) < 2 ^ 32)
  simp only [wrap32, I32MAX]
  omega

theorem wrap32_of_mem (x : Int) (h1 : I32MIN ≤ x) (h2 : x ≤ I32MAX) : wrap32 x = x := by
  simp only [wrap32, I32MIN, I32MAX] at *
  have : (x + 2 ^ 31) % 2 ^ 32 = x + 2 ^ 31 := Int.emod_eq_of_lt (by omega) (by omega)
  omega

theorem wrap32_even (x : Int) (h : Even x) : Even (wrap32 x) := by
  rcases h with ⟨k, hk⟩
  have h2 : (2 : Int) ^ 32 = 2 * 2 ^ 31 := by norm_num
  have := Int.emod_emod_of_dvd x (by norm_num : (2 : Int) ∣ 2 ^ 32)
  refine ⟨(x + 2 ^ 31) % 2 ^ 32 / 2 - 2 ^ 30, ?_⟩
  have hx : x % 2 = 0 := by omega
  have : ((x + 2 ^ 31) % 2 ^ 32) % 2 = 0 := by
    have h32 : ((2:Int) ^ 32) % 2 = 0 := by norm_num
    have := Int.emod_emod_of_dvd (x + 2 ^ 31) (by norm_num : (2 : Int) ∣ 2 ^ 32)
    omega
  simp only [wrap32]
  omega

theorem add32_eq (a b : Int) (h1 : I32MIN ≤ a + b) (h2 : a + b ≤ I32MAX) :
    add32 a b = a + b := wrap32_of_mem _ h1 h2

/-- C9: for every Distance `d` with `0 ≤ d ≤ Distance::MAX`, converting to
a ScaledDistance (left shift by 5) and back with `to_distance` (arithmetic
right shift by 5) returns `d`. -/
theorem scaled_distance_roundtrip (d : Int) (h0 : 0 ≤ d) (h1 : d ≤ Distance.MAX) :
    ScaledDistance.to_distance (ScaledDistance.from_distance d) = d := by
  have hmax : d ≤ 67108863 := by
    have : Distance.MAX = 67108863 := by norm_num [Distance.MAX, I32MAX]
    omega
  have hr : wrap32 (d * 32) = d * 32 := by
    apply wrap32_of_mem
    · simp only [I32MIN]; omega
    · simp only [I32MAX]; omega
  simp only [ScaledDistance.to_distance, ScaledDistance.from_distance, hr]
  exact Int.mul_fdiv_cancel d (by norm_num)

theorem scaled_distance_roundtrip_witness :
    0 ≤ (5 : Int) ∧ (5 : Int) ≤ Distance.MAX ∧
      ScaledDistance.to_distance (ScaledDistance.from_distance 5) = 5 :=
  ⟨by norm_num, by norm_num [Distance.MAX, I32MAX],
    scaled_distance_roundtrip 5 (by norm_num) (by norm_num [Distance.MAX, I32MAX])⟩

/-- C8: the header parser's TYPE vocabulary.  The parser accepts exactly
TSP, ATSP, SOP, HCP and TOUR; the value `CVRP` - although `ProblemType`
has a `CVRP` variant and the claim lists it as accepted - is rejected
with `InvalidProblemType`. -/
theorem parse_problem_type_rejects_cvrp :
    parse_problem_type "CVRP" = .error (.InvalidProblemType "CVRP") ∧
      parse_problem_type "TSP" = .ok .TSP ∧ parse_problem_type "ATSP" = .ok .ATSP ∧
      parse_problem_type "SOP" = .ok .SOP ∧ parse_problem_type "HCP" = .ok .HCP ∧
      parse_problem_type "TOUR" = .ok .TOUR := by
  refine ⟨?_, ?_, ?_, ?_, ?_, ?_⟩ <;> rfl

/-- C7 counterexample: on the first data line `"1 5 2.5"` the x token is
`"5"` (no dot) but the y token is `"2.5"`; the spec's "either coordinate"
predicate says float mode, yet `is_float_data` returns `false` and the
whole section is parsed in integer mode (which would `panic` on `"2.5"`
in the source). -/
theorem float_mode_ignores_y :
    is_float_data ['1', ' ', '5', ' ', '2', '.', '5'] = false ∧
      spec_either_coordinate_has_dot ['1', ' ', '5', ' ', '2', '.', '5'] = true ∧
      parse_2d_node_coord_section (fun s => 'f' :: s) (fun s => 'u' :: s)
        [['1', ' ', '5', ' ', '2', '.', '5']] =
        [(['u', '5'], ['u', '2', '.', '5'])] := by
  refine ⟨by decide, by decide, by decide⟩

theorem parse2dLines_eq_takeWhile {α : Type} (pf pu : List Char → α) (fl : Bool) :
    ∀ ls : List (List Char),
      parse2dLines pf pu fl ls =
        (ls.takeWhile (fun l => !(trimChars l = ['E', 'O', 'F'] ∨ trimChars l = []))).map
          (fun l => parse_line_to_2d_point pf pu (trimChars l) fl)
  | [] => rfl
  | line :: rest => by
    by_cases h : trimChars line = ['E', 'O', 'F'] ∨ trimChars line = []
    · simp [parse2dLines, h, List.takeWhile]
    · simp only [parse2dLines, if_neg h]
      rw [parse2dLines_eq_takeWhile pf pu fl rest]
      simp [List.takeWhile, h]

/-- C7 (amended): the parser samples only the first data line, and the
float/integer mode is decided solely by whether the x-coordinate token
(the second whitespace-separated token) of that line contains a `'.'`;
every data line up to the `EOF`/empty terminator is then parsed with that
single mode. -/
theorem node_coord_mode_from_first_x {α : Type} (pf pu : List Char → α)
    (lines : List (List Char)) :
    parse_2d_node_coord_section pf pu lines =
      (lines.takeWhile
          (fun l => !(trimChars l = ['E', 'O', 'F'] ∨ trimChars l = []))).map
        (fun l => parse_line_to_2d_point pf pu (trimChars l)
          (((asciiTokens (lines.headD [])).getD 1 []).contains '.')) := by
  unfold parse_2d_node_coord_section is_float_data
  exact parse2dLines_eq_takeWhile pf pu _ lines

/-- C1 counterexample: on a 2-node instance (dimension `2 < 3`)
`held_karp` does not return `None` - it returns the seeded identity tour
(there is no `n >= 3` precondition check in the source). -/
theorem held_karp_small_instance_some :
    twoNodeInstance.dimension = 2 ∧
      held_karp 5 twoNodeInstance = some ⟨[⟨0, 1⟩, ⟨1, 0⟩], 10⟩ := by
  refine ⟨rfl, by decide⟩


theorem hklbLast_tour (d sd : EdgeDataMatrix Int) (es : EdgeDataMatrix EdgeState)
    (ub S : Int) (π : List Int) (blb : Int) (t : List UnEdge)
    (hT : min_one_tree sd es π = some t)
    (h1 : ¬ ub ≤ one_tree_cost_calc sd π S t)
    (hss : degSquareSum (degList d.dimension t) = 0) :
    hklbLast d sd es ub S π blb = (some (.Tour ⟨t, rawTreeCost d t⟩), π) := by
  rw [hklbLast, hT]
  dsimp only
  rw [if_neg h1, if_pos hss]

theorem hklbLast_prune (d sd : EdgeDataMatrix Int) (es : EdgeDataMatrix EdgeState)
    (ub S : Int) (π : List Int) (blb : Int) (t : List UnEdge)
    (hT : min_one_tree sd es π = some t)
    (h1 : ub ≤ one_tree_cost_calc sd π S t) :
    hklbLast d sd es ub S π blb =
      (some (.LowerBound (ScaledDistance.to_distance_rounded_up
        (if blb < one_tree_cost_calc sd π S t then one_tree_cost_calc sd π S t else blb)) t),
        π) := by
  rw [hklbLast, hT]
  dsimp only
  rw [if_pos h1]

theorem hklbAux_tour (d sd : EdgeDataMatrix Int) (es : EdgeDataMatrix EdgeState)
    (ub S : Int) (β : Frac) (fuel : Nat) (π : List Int) (α : Frac) (blb : Int)
    (t : List UnEdge)
    (hT : min_one_tree sd es π = some t)
    (h1 : ¬ ub ≤ one_tree_cost_calc sd π S t)
    (hss : degSquareSum (degList d.dimension t) = 0) :
    hklbAux d sd es ub S β fuel π α blb = (some (.Tour ⟨t, rawTreeCost d t⟩), π) := by
  rcases fuel with _ | fuel
  · rw [hklbAux]
    exact hklbLast_tour d sd es ub S π blb t hT h1 hss
  · rcases fuel with _ | fuelRest
    · rw [hklbAux]
      exact hklbLast_tour d sd es ub S π blb t hT h1 hss
    · rw [hklbAux, hT]
      dsimp only
      rw [if_neg h1, if_pos hss]

theorem hklbAux_prune (d sd : EdgeDataMatrix Int) (es : EdgeDataMatrix EdgeState)
    (ub S : Int) (β : Frac) (fuel : Nat) (π : List Int) (α : Frac) (blb : Int)
    (t : List UnEdge)
    (hT : min_one_tree sd es π = some t)
    (h1 : ub ≤ one_tree_cost_calc sd π S t) :
    hklbAux d sd es ub S β fuel π α blb =
      (some (.LowerBound (ScaledDistance.to_distance_rounded_up
        (if blb < one_tree_cost_calc sd π S t then one_tree_cost_calc sd π S t else blb)) t),
        π) := by
  rcases fuel with _ | fuel
  · rw [hklbAux]
    exact hklbLast_prune d sd es ub S π blb t hT h1
  · rcases fuel with _ | fuelRest
    · rw [hklbAux]
      exact hklbLast_prune d sd es ub S π blb t hT h1
    · rw [hklbAux, hT]
      dsimp only
      rw [if_pos h1]

theorem hklbAux_continue (d sd : EdgeDataMatrix Int) (es : EdgeDataMatrix EdgeState)
    (ub S : Int) (β : Frac) (fuelRest : Nat) (π : List Int) (α : Frac) (blb : Int)
    (t : List UnEdge) (step : Int)
    (hT : min_one_tree sd es π = some t)
    (h1 : ¬ ub ≤ one_tree_cost_calc sd π S t)
    (hss : degSquareSum (degList d.dimension t) ≠ 0)
    (hstep : f64_as_i32 (α.mul ((Frac.ofInt (sub32 ub (one_tree_cost_calc sd π S t))).div
      (Frac.ofInt (degSquareSum (degList d.dimension t))))) = step)
    (h3 : ¬ step ≤ 3) :
    hklbAux d sd es ub S β (fuelRest + 2) π α blb =
      hklbAux d sd es ub S β (fuelRest + 1)
        (List.zipWith (fun p dv => add32 p (mul32 step dv)) π (degList d.dimension t))
        (α.mul β)
        (if blb < one_tree_cost_calc sd π S t then one_tree_cost_calc sd π S t else blb) := by
  rw [hklbAux, hT]
  dsimp only
  rw [if_neg h1, if_neg hss, hstep, if_neg h3]

theorem hlb_star :
    held_karp_lower_bound starInstance starScaled fourNodeStates [0, 0, 0, 0] 202 10 BETA =
      (some (.LowerBound 202 [⟨1, 3⟩, ⟨3, 2⟩, ⟨0, 1⟩, ⟨0, 2⟩]), [0, -3168, 0, 3168]) := by
  unfold held_karp_lower_bound
  rw [show ScaledDistance.from_distance 202 = 6464 from by decide,
    show scaledSum [0, 0, 0, 0] = 0 from by decide,
    show (10 : Nat) = 8 + 2 from rfl]
  rw [hklbAux_continue starInstance starScaled fourNodeStates 6464 0 BETA 8 [0, 0, 0, 0]
    INITIAL_ALPHA ScaledDistance.MIN [⟨1, 2⟩, ⟨1, 3⟩, ⟨0, 1⟩, ⟨0, 2⟩] 3168
    (by decide) (by decide) (by decide) (by decide) (by decide)]
  show hklbAux starInstance starScaled fourNodeStates 6464 0 BETA 9 [0, -3168, 0, 3168]
    (INITIAL_ALPHA.mul BETA) 3296 = _
  rw [hklbAux_prune starInstance starScaled fourNodeStates 6464 0 BETA 9 [0, -3168, 0, 3168]
    (INITIAL_ALPHA.mul BETA) 3296 [⟨1, 3⟩, ⟨3, 2⟩, ⟨0, 1⟩, ⟨0, 2⟩]
    (by decide) (by decide)]
  decide

theorem explore_star :
    explore_node starInstance starScaled 3 starState none 1 =
      { starState with bb_counter := 1, node_penalties := [0, -3168, 0, 3168] } := by
  rw [show (3 : Nat) = 2 + 1 from rfl, explore_node]
  dsimp only [starState]
  simp only [if_neg (show ¬(1 : Nat) = 0 from by decide)]
  dsimp only [MAX_ITERATIONS]
  rw [hlb_star]
  dsimp only
  rw [if_pos (show (202 : Int) ≤ 202 from by decide)]
  simp

/-- C3 counterexample: a returning `explore_node` call (on the 4-node
star instance, entered with all-zero penalties) leaves the node-penalty
array changed to `[0, -3168, 0, 3168]`: the subgradient update made
inside `held_karp_lower_bound` is not restored on backtrack. -/
theorem explore_node_changes_penalties :
    (explore_node starInstance starScaled 3 starState none 1).node_penalties ≠
      starState.node_penalties := by
  rw [explore_star]
  decide

/-- C2: whenever `held_karp_lower_bound` builds (in the pass entered at
the given penalties) a minimum 1-tree whose squared degree-deviation sum
is 0 and whose Lagrangian objective is below the scaled upper bound, it
returns a `Tour` whose cost is the `i32` sum of the raw (unscaled)
distances of the tree's edges, and `explore_node`, entered at that same
state with no branch limit, then replaces the current upper bound and
best tour with that tour. -/
theorem lower_bound_tour_updates_bounds
    (d sd : EdgeDataMatrix Int) (es : EdgeDataMatrix EdgeState) (π : List Int)
    (ub : Int) (mi : Nat) (β : Frac) (fd : List Nat) (bt : Option UnTour) (c : Nat)
    (fuel depth : Nat) (t : List UnEdge)
    (hT : min_one_tree sd es π = some t)
    (hss : degSquareSum (degList d.dimension t) = 0)
    (hL : one_tree_cost_calc sd π (scaledSum π) t < ScaledDistance.from_distance ub) :
    held_karp_lower_bound d sd es π ub mi β = (some (.Tour ⟨t, rawTreeCost d t⟩), π) ∧
      (explore_node d sd (fuel + 1) ⟨es, π, fd, ub, bt, c⟩ none depth).upper_bound =
        rawTreeCost d t ∧
      (explore_node d sd (fuel + 1) ⟨es, π, fd, ub, bt, c⟩ none depth).best_tour =
        some ⟨t, rawTreeCost d t⟩ := by
  have h1 : ¬ ScaledDistance.from_distance ub ≤ one_tree_cost_calc sd π (scaledSum π) t :=
    not_le.mpr hL
  have hmain : ∀ (mi' : Nat) (β' : Frac),
      held_karp_lower_bound d sd es π ub mi' β' = (some (.Tour ⟨t, rawTreeCost d t⟩), π) := by
    intro mi' β'
    unfold held_karp_lower_bound
    exact hklbAux_tour d sd es _ _ β' mi' π INITIAL_ALPHA ScaledDistance.MIN t hT h1 hss
  refine ⟨hmain mi β, ?_, ?_⟩ <;>
  · rw [explore_node]
    dsimp only
    simp only [Bool.false_eq_true, if_false, hmain]

theorem lower_bound_tour_updates_bounds_witness :
    min_one_tree threeNodeScaled threeNodeStates [0, 0, 0] = some threeNodeTree ∧
      degSquareSum (degList threeNodeInstance.dimension threeNodeTree) = 0 ∧
      one_tree_cost_calc threeNodeScaled [0, 0, 0] (scaledSum [0, 0, 0]) threeNodeTree <
        ScaledDistance.from_distance 100 ∧
      held_karp_lower_bound threeNodeInstance threeNodeScaled threeNodeStates [0, 0, 0] 100
        10 BETA =
        (some (.Tour ⟨threeNodeTree, rawTreeCost threeNodeInstance threeNodeTree⟩),
          [0, 0, 0]) ∧
      (explore_node threeNodeInstance threeNodeScaled 1
          ⟨threeNodeStates, [0, 0, 0], [0, 0, 0], 100, none, 0⟩ none 5).upper_bound =
        rawTreeCost threeNodeInstance threeNodeTree :=
  ⟨by decide, by decide, by decide,
    (lower_bound_tour_updates_bounds threeNodeInstance threeNodeScaled threeNodeStates
      [0, 0, 0] 100 10 BETA [0, 0, 0] none 0 0 5 threeNodeTree (by decide) (by decide)
      (by decide)).1,
    (lower_bound_tour_updates_bounds threeNodeInstance threeNodeScaled threeNodeStates
      [0, 0, 0] 100 10 BETA [0, 0, 0] none 0 0 5 threeNodeTree (by decide) (by decide)
      (by decide)).2.1⟩

/-- C5 counterexample: the node-0 scan does not use reduced distances.
On `rowPenaltyScaled` with penalty 100000 on node 3, the returned 1-tree
connects node 0 to neighbours 1 and 2, although the Available edge
`(0,3)` has a strictly smaller reduced scaled distance than `(0,2)` - so
the selected pair is not the pair with the two smallest reduced
distances. -/
theorem min_one_tree_not_reduced_minima :
    min_one_tree rowPenaltyScaled fourNodeStates rowPenalties =
      some [⟨1, 3⟩, ⟨3, 2⟩, ⟨0, 1⟩, ⟨0, 2⟩] ∧
      fourNodeStates.get_data 0 3 = .Available ∧
      sub32 (sub32 (rowPenaltyScaled.get_data 0 3) (rowPenalties.getD 0 0))
          (rowPenalties.getD 3 0) <
        sub32 (sub32 (rowPenaltyScaled.get_data 0 2) (rowPenalties.getD 0 0))
          (rowPenalties.getD 2 0) ∧
      (∀ e ∈ [⟨1, 3⟩, ⟨3, 2⟩, ⟨0, 1⟩, (⟨0, 2⟩ : UnEdge)],
        ¬(e.efrom = 0 ∧ e.eto = 3) ∧ ¬(e.efrom = 3 ∧ e.eto = 0)) := by
  refine ⟨by decide, by decide, by decide, by decide⟩

theorem getD_set_self {α : Type} [Inhabited α] (l : List α) (i : Nat) (v : α)
    (h : i < l.length) : (l.set i v).getD i default = v := by
  simp [List.getD_eq_getElem?_getD, List.getElem?_set_self, h]

theorem getD_set_ne {α : Type} [Inhabited α] (l : List α) (i j : Nat) (v : α)
    (hij : i ≠ j) : (l.set i v).getD j default = l.getD j default := by
  simp [List.getD_eq_getElem?_getD, List.getElem?_set_ne hij]

theorem getD_map_total {α β : Type} (f : α → β) (d : α) (dv : β)
    (hf : f d = dv) (l : List α) (i : Nat) :
    (l.map f).getD i dv = f (l.getD i d) := by
  induction l generalizing i with
  | nil => simpa using hf.symm
  | cons a l ih =>
    cases i with
    | zero => rfl
    | succ i => simpa using ih i

theorem foldl_flatMap {α β γ : Type} (l : List α) (g : α → List β) (s : γ → β → γ)
    (i : γ) : (l.flatMap g).foldl s i = l.foldl (fun acc a => (g a).foldl s acc) i := by
  induction l generalizing i with
  | nil => rfl
  | cons a l ih => simp [List.flatMap_cons, List.foldl_append, ih]


theorem mem_lowerPairs {dim : Nat} {p : Nat × Nat} :
    p ∈ lowerPairs dim ↔ p.2 < p.1 ∧ p.1 < dim := by
  simp only [lowerPairs, List.mem_flatMap, List.mem_map, List.mem_range]
  constructor
  · rintro ⟨a, ha, b, hb, hp⟩
    subst hp; exact ⟨hb, ha⟩
  · rintro ⟨h1, h2⟩
    exact ⟨p.1, h2, p.2, h1, rfl⟩

theorem initial_penalties_eq_flat (sc : EdgeDataMatrix Int) (dim : Nat) :
    initial_penalties sc dim =
      ((lowerPairs dim).foldl
        (fun pen p =>
          let distance := sc.get_data_to_seq p.1 p.2
          let pen := if distance < pen.getD p.1 0 then pen.set p.1 distance else pen
          if distance < pen.getD p.2 0 then pen.set p.2 distance else pen)
        (List.replicate dim ScaledDistance.MAX)).map (fun p => Int.tdiv p 2) := by
  unfold initial_penalties lowerPairs
  rw [foldl_flatMap]
  show List.map _ _ = List.map _ _
  congr 1
  have hfun :
      (fun (pen : List Int) (f : Nat) =>
        List.foldl
          (fun pen t =>
            let distance := sc.get_data_to_seq f t
            let pen := if distance < pen.getD f 0 then pen.set f distance else pen
            if distance < pen.getD t 0 then pen.set t distance else pen)
          pen (List.range f)) =
      (fun (acc : List Int) (a : Nat) =>
        List.foldl
          (fun pen (p : Nat × Nat) =>
            let distance := sc.get_data_to_seq p.1 p.2
            let pen := if distance < pen.getD p.1 0 then pen.set p.1 distance else pen
            if distance < pen.getD p.2 0 then pen.set p.2 distance else pen)
          acc (List.map (fun t => (a, t)) (List.range a))) := by
    funext acc f
    rw [List.foldl_map]
  rw [hfun]

theorem ip_fold_inv (sc : EdgeDataMatrix Int) (dim : Nat) :
    ∀ (L : List (Nat × Nat)) (pen : List Int) (pr : List (Nat × Nat)),
      (∀ p ∈ L, p.2 < p.1 ∧ p.1 < dim) →
      pen.length = dim →
      (∀ v, v < dim → pen.getD v 0 = ScaledDistance.MAX ∨
        ∃ p ∈ pr, (v = p.1 ∨ v = p.2) ∧ pen.getD v 0 = sc.get_data_to_seq p.1 p.2) →
      (∀ v, v < dim → ∀ p ∈ pr, (v = p.1 ∨ v = p.2) →
        pen.getD v 0 ≤ sc.get_data_to_seq p.1 p.2) →
      (L.foldl
          (fun pen p =>
            let distance := sc.get_data_to_seq p.1 p.2
            let pen := if distance < pen.getD p.1 0 then pen.set p.1 distance else pen
            if distance < pen.getD p.2 0 then pen.set p.2 distance else pen)
          pen).length = dim ∧
      (∀ v, v < dim →
        (L.foldl
          (fun pen p =>
            let distance := sc.get_data_to_seq p.1 p.2
            let pen := if distance < pen.getD p.1 0 then pen.set p.1 distance else pen
            if distance < pen.getD p.2 0 then pen.set p.2 distance else pen)
          pen).getD v 0 = ScaledDistance.MAX ∨
        ∃ p ∈ pr ++ L, (v = p.1 ∨ v = p.2) ∧
          (L.foldl
            (fun pen p =>
              let distance := sc.get_data_to_seq p.1 p.2
              let pen := if distance < pen.getD p.1 0 then pen.set p.1 distance else pen
              if distance < pen.getD p.2 0 then pen.set p.2 distance else pen)
            pen).getD v 0 = sc.get_data_to_seq p.1 p.2) ∧
      (∀ v, v < dim → ∀ p ∈ pr ++ L, (v = p.1 ∨ v = p.2) →
        (L.foldl
          (fun pen p =>
            let distance := sc.get_data_to_seq p.1 p.2
            let pen := if distance < pen.getD p.1 0 then pen.set p.1 distance else pen
            if distance < pen.getD p.2 0 then pen.set p.2 distance else pen)
          pen).getD v 0 ≤ sc.get_data_to_seq p.1 p.2) := by
  intro L
  induction L with
  | nil =>
    intro pen pr _ hlen hii hiii
    refine ⟨hlen, ?_, ?_⟩
    · intro v hv
      rcases hii v hv with h | ⟨p, hp, hvp, he⟩
      · exact Or.inl h
      · exact Or.inr ⟨p, by simpa using hp, hvp, he⟩
    · intro v hv p hp hvp
      exact hiii v hv p (by simpa using hp) hvp
  | cons q L ih =>
    intro pen pr hwf hlen hii hiii
    obtain ⟨hq21, hq1⟩ := hwf q (List.mem_cons_self q L)
    have hq2 : q.2 < dim := lt_trans hq21 hq1
    have hne : q.1 ≠ q.2 := Nat.ne_of_gt hq21
    set d := sc.get_data_to_seq q.1 q.2 with hd
    -- the single update step
    set pen1 := if d < pen.getD q.1 0 then pen.set q.1 d else pen with hpen1
    set pen2 := if d < pen1.getD q.2 0 then pen1.set q.2 d else pen1 with hpen2
    have hlen1 : pen1.length = dim := by
      rw [hpen1]; split <;> simp [hlen]
    have hlen2 : pen2.length = dim := by
      rw [hpen2]; split <;> simp [hlen1]
    have hp1f : pen1.getD q.1 0 = if d < pen.getD q.1 0 then d else pen.getD q.1 0 := by
      rw [hpen1]; split
      · exact getD_set_self pen q.1 d (hlen ▸ hq1)
      · rfl
    have hp1other : ∀ v, v ≠ q.1 → pen1.getD v 0 = pen.getD v 0 := by
      intro v hv
      rw [hpen1]; split
      · exact getD_set_ne pen q.1 v d (fun h => hv h.symm)
      · rfl
    have hp2t : pen2.getD q.2 0 = if d < pen.getD q.2 0 then d else pen.getD q.2 0 := by
      have h1 : pen1.getD q.2 0 = pen.getD q.2 0 := hp1other q.2 (fun h => hne h.symm)
      rw [hpen2, h1]; split
      · exact getD_set_self pen1 q.2 d (hlen1 ▸ hq2)
      · exact h1
    have hp2other : ∀ v, v ≠ q.2 → pen2.getD v 0 = pen1.getD v 0 := by
      intro v hv
      rw [hpen2]; split
      · exact getD_set_ne pen1 q.2 v d (fun h => hv h.symm)
      · rfl
    have hp2f : pen2.getD q.1 0 = if d < pen.getD q.1 0 then d else pen.getD q.1 0 := by
      rw [hp2other q.1 hne, hp1f]
    have hle : ∀ v, pen2.getD v 0 ≤ pen.getD v 0 := by
      intro v
      by_cases hv2 : v = q.2
      · subst hv2
        rw [hp2t]; split
        · omega
        · exact le_rfl
      · rw [hp2other v hv2]
        by_cases hv1 : v = q.1
        · subst hv1
          rw [hp1f]; split
          · omega
          · exact le_rfl
        · rw [hp1other v hv1]
    have hstep : (q :: L).foldl
        (fun pen p =>
          let distance := sc.get_data_to_seq p.1 p.2
          let pen := if distance < pen.getD p.1 0 then pen.set p.1 distance else pen
          if distance < pen.getD p.2 0 then pen.set p.2 distance else pen)
        pen = L.foldl
        (fun pen p =>
          let distance := sc.get_data_to_seq p.1 p.2
          let pen := if distance < pen.getD p.1 0 then pen.set p.1 distance else pen
          if distance < pen.getD p.2 0 then pen.set p.2 distance else pen)
        pen2 := by
      rw [List.foldl_cons]
    rw [hstep]
    have hres := ih pen2 (pr ++ [q])
      (fun p hp => hwf p (List.mem_cons_of_mem q hp)) hlen2
      (by
        intro v hv
        by_cases hv1 : v = q.1
        · subst hv1
          rw [hp2f]; split
          · exact Or.inr ⟨q, by simp, Or.inl rfl, rfl⟩
          · rcases hii q.1 hv with h | ⟨p, hp, hvp, he⟩
            · exact Or.inl h
            · exact Or.inr ⟨p, by simp [hp], hvp, he⟩
        · by_cases hv2 : v = q.2
          · subst hv2
            rw [hp2t]; split
            · exact Or.inr ⟨q, by simp, Or.inr rfl, rfl⟩
            · rcases hii q.2 hv with h | ⟨p, hp, hvp, he⟩
              · exact Or.inl h
              · exact Or.inr ⟨p, by simp [hp], hvp, he⟩
          · rw [hp2other v hv2, hp1other v hv1]
            rcases hii v hv with h | ⟨p, hp, hvp, he⟩
            · exact Or.inl h
            · exact Or.inr ⟨p, by simp [hp], hvp, he⟩)
      (by
        intro v hv p hp hvp
        rcases List.mem_append.mp hp with hp | hp
        · exact le_trans (hle v) (hiii v hv p hp hvp)
        · have hpq : p = q := by simpa using hp
          subst hpq
          rcases hvp with hv1 | hv2
          · subst hv1
            rw [hp2f]; split
            · exact le_rfl
            · omega
          · subst hv2
            rw [hp2t]; split
            · exact le_rfl
            · omega)
    refine ⟨hres.1, ?_, ?_⟩
    · intro v hv
      rcases hres.2.1 v hv with h | ⟨p, hp, hvp, he⟩
      · exact Or.inl h
      · refine Or.inr ⟨p, ?_, hvp, he⟩
        simp only [List.append_assoc, List.cons_append, List.nil_append] at hp
        exact hp
    · intro v hv p hp hvp
      refine hres.2.2 v hv p ?_ hvp
      simp only [List.append_assoc, List.cons_append, List.nil_append]
      exact hp

theorem get_data_to_seq_eq {α : Type} [Inhabited α] (m : EdgeDataMatrix α) (a b : Nat) :
    m.get_data_to_seq a b = m.get_data a b := rfl

theorem scaledMatrix_get (m : EdgeDataMatrix Int) (a b : Nat) :
    (scaledMatrix m).get_data a b = ScaledDistance.from_distance (m.get_data a b) := by
  unfold scaledMatrix EdgeDataMatrix.get_data
  exact getD_map_total ScaledDistance.from_distance default default (by decide) m.data _

theorem scaledMatrix_even (m : EdgeDataMatrix Int) (a b : Nat) :
    Even ((scaledMatrix m).get_data a b) := by
  rw [scaledMatrix_get]
  exact wrap32_even _ ⟨m.get_data a b * 16, by ring⟩

theorem scaledMatrix_lt_max (m : EdgeDataMatrix Int) (a b : Nat) :
    (scaledMatrix m).get_data a b < ScaledDistance.MAX := by
  have h1 := scaledMatrix_even m a b
  have h2 : (scaledMatrix m).get_data a b ≤ I32MAX := by
    rw [scaledMatrix_get]; exact wrap32_ub _
  rcases h1 with ⟨k, hk⟩
  simp only [ScaledDistance.MAX, I32MAX] at *
  omega

theorem scaledMatrix_symm (m : EdgeDataMatrix Int) (a b : Nat)
    (hsym : m.get_data a b = m.get_data b a) :
    (scaledMatrix m).get_data a b = (scaledMatrix m).get_data b a := by
  rw [scaledMatrix_get, scaledMatrix_get, hsym]

theorem even_two_mul_tdiv (x : Int) (h : Even x) : 2 * Int.tdiv x 2 = x := by
  rcases h with ⟨k, hk⟩
  subst hk
  rw [show k + k = 2 * k by ring, Int.mul_tdiv_cancel_left k (by norm_num)]

/-- C6: `held_karp` initialises (via `initial_penalties` on the scaled
matrix) every node penalty to half of the minimum scaled distance from
that node to any other node: `2 * pi[v]` equals the minimum over `u ≠ v`
of `scaledDist(v, u)` (the halving is exact because every scaled entry
is even). -/
theorem initial_penalties_half_min (m : EdgeDataMatrix Int) (v : Nat)
    (hsym : ∀ a b, a < m.dimension → b < m.dimension → m.get_data a b = m.get_data b a)
    (hn : 2 ≤ m.dimension) (hv : v < m.dimension) :
    ∃ u, u < m.dimension ∧ u ≠ v ∧
      2 * (initial_penalties (scaledMatrix m) m.dimension).getD v 0 =
        (scaledMatrix m).get_data v u ∧
      ∀ w, w < m.dimension → w ≠ v →
        (scaledMatrix m).get_data v u ≤ (scaledMatrix m).get_data v w := by
  have hinit2 : ∀ x, x < m.dimension →
      (List.replicate m.dimension ScaledDistance.MAX).getD x 0 = ScaledDistance.MAX := by
    intro x hx
    simp [List.getD_eq_getElem?_getD, List.getElem?_replicate, hx]
  have hinv := ip_fold_inv (scaledMatrix m) m.dimension (lowerPairs m.dimension)
    (List.replicate m.dimension ScaledDistance.MAX) []
    (fun p hp => mem_lowerPairs.mp hp)
    (by simp)
    (fun x hx => Or.inl (hinit2 x hx))
    (by simp)
  obtain ⟨hlen, hii, hiii⟩ := hinv
  simp only [List.nil_append] at hii hiii
  set pre := (lowerPairs m.dimension).foldl
    (fun pen p =>
      let distance := (scaledMatrix m).get_data_to_seq p.1 p.2
      let pen := if distance < pen.getD p.1 0 then pen.set p.1 distance else pen
      if distance < pen.getD p.2 0 then pen.set p.2 distance else pen)
    (List.replicate m.dimension ScaledDistance.MAX) with hpre
  -- minimality of pre[v] over all pairs containing v
  have hmin : ∀ w, w < m.dimension → w ≠ v →
      pre.getD v 0 ≤ (scaledMatrix m).get_data v w := by
    intro w hw hwv
    rcases Nat.lt_or_ge w v with hlt | hge
    · have hle := hiii v hv (v, w) (mem_lowerPairs.mpr ⟨hlt, hv⟩) (Or.inl rfl)
      rwa [get_data_to_seq_eq] at hle
    · have hlt : v < w := Nat.lt_of_le_of_ne hge (fun h => hwv h.symm)
      have hle := hiii v hv (w, v) (mem_lowerPairs.mpr ⟨hlt, hw⟩) (Or.inr rfl)
      rw [get_data_to_seq_eq] at hle
      rwa [scaledMatrix_symm m w v (hsym w v hw hv)] at hle
  -- pre[v] is attained at some pair containing v
  have hattain : ∃ u, u < m.dimension ∧ u ≠ v ∧
      pre.getD v 0 = (scaledMatrix m).get_data v u := by
    rcases hii v hv with hmax | ⟨p, hp, hvp, he⟩
    · exfalso
      set u0 : Nat := if v = 0 then 1 else 0 with hu0
      have hu0n : u0 < m.dimension := by
        rw [hu0]; split <;> omega
      have hu0v : u0 ≠ v := by
        rw [hu0]; split <;> omega
      have := hmin u0 hu0n hu0v
      rw [hmax] at this
      exact absurd this (not_le.mpr (scaledMatrix_lt_max m v u0))
    · obtain ⟨hp21, hp1n⟩ := mem_lowerPairs.mp hp
      rcases hvp with hv1 | hv2
      · refine ⟨p.2, by omega, by omega, ?_⟩
        rw [he, get_data_to_seq_eq, hv1]
      · refine ⟨p.1, by omega, by omega, ?_⟩
        rw [he, get_data_to_seq_eq, hv2,
          scaledMatrix_symm m p.1 p.2 (hsym p.1 p.2 hp1n (by omega))]
  obtain ⟨u, hun, huv, hue⟩ := hattain
  refine ⟨u, hun, huv, ?_, fun w hw hwv => hue ▸ hmin w hw hwv⟩
  rw [initial_penalties_eq_flat, ← hpre,
    getD_map_total (fun p => Int.tdiv p 2) 0 0 (by decide) pre v, hue]
  exact even_two_mul_tdiv _ (scaledMatrix_even m v u)

theorem initial_penalties_half_min_witness :
    (∀ a b, a < threeNodeInstance.dimension → b < threeNodeInstance.dimension →
      threeNodeInstance.get_data a b = threeNodeInstance.get_data b a) ∧
      2 ≤ threeNodeInstance.dimension ∧ (0 : Nat) < threeNodeInstance.dimension ∧
      (∃ u, u < threeNodeInstance.dimension ∧ u ≠ 0 ∧
        2 * (initial_penalties (scaledMatrix threeNodeInstance)
          threeNodeInstance.dimension).getD 0 0 =
          (scaledMatrix threeNodeInstance).get_data 0 u ∧
        ∀ w, w < threeNodeInstance.dimension → w ≠ 0 →
          (scaledMatrix threeNodeInstance).get_data 0 u ≤
            (scaledMatrix threeNodeInstance).get_data 0 w) := by
  have hsym : ∀ a b, a < threeNodeInstance.dimension → b < threeNodeInstance.dimension →
      threeNodeInstance.get_data a b = threeNodeInstance.get_data b a := by
    intro a b ha hb
    have ha' : a < 3 := ha
    have hb' : b < 3 := hb
    interval_cases a <;> interval_cases b <;> decide
  exact ⟨hsym, by decide, by decide,
    initial_penalties_half_min threeNodeInstance 0 hsym (by decide) (by decide)⟩

theorem explore_node_best_tour_isSome (d sd : EdgeDataMatrix Int) :
    ∀ (fuel : Nat) (st : BBState) (lim : Option Nat) (dep : Nat),
      st.best_tour.isSome → ((explore_node d sd fuel st lim dep).best_tour).isSome := by
  intro fuel
  induction fuel with
  | zero => intro st lim dep h; exact h
  | succ fuel ih =>
    intro st lim dep h
    rw [explore_node.eq_def]
    dsimp only
    repeat' split
    all_goals
      first
        | exact h
        | exact Option.isSome_some
        | exact ih _ _ _ h
        | exact ih _ _ _ (ih _ _ _ h)

/-- C1 (amended): `held_karp` never returns `None` on instances where it
returns at all (dimension at least 2; below that the source panics):
`best_tour` is seeded with the identity tour and `explore_node` only ever
replaces a `Some` by a `Some`.  In particular there is no `n ≥ 3`
precondition and no `None` result for `n = 2`. -/
theorem held_karp_always_some (fuel : Nat) (m : EdgeDataMatrix Int)
    (hn : 2 ≤ m.dimension) : (held_karp fuel m).isSome := by
  unfold held_karp
  exact explore_node_best_tour_isSome m (scaledMatrix m) fuel _ none 0 rfl

theorem held_karp_always_some_witness :
    2 ≤ twoNodeInstance.dimension ∧ (held_karp 5 twoNodeInstance).isSome :=
  ⟨by decide, held_karp_always_some 5 twoNodeInstance (by decide)⟩

theorem getD_eq_getElem {α : Type} [Inhabited α] (l : List α) (j : Nat) (h : j < l.length) :
    l.getD j default = l[j] := by
  simp [List.getD_eq_getElem?_getD, List.getElem?_eq_getElem h]

theorem swapRemove_length {α : Type} [Inhabited α] (l : List α) (idx : Nat) :
    (swapRemove l idx).length = l.length - 1 := by
  simp [swapRemove]

theorem swapRemove_getElem {α : Type} [Inhabited α] (l : List α) (idx j : Nat)
    (hidx : idx < l.length) (hj : j < l.length - 1) :
    (swapRemove l idx).getD j default =
      if j = idx then l.getD (l.length - 1) default else l.getD j default := by
  have hj1 : j < (swapRemove l idx).length := by rw [swapRemove_length]; omega
  have hj2 : j < (l.set idx (l.getD (l.length - 1) default)).length := by simp; omega
  rw [getD_eq_getElem _ _ hj1]
  have hjt : j < ((l.set idx (l.getD (l.length - 1) default)).take (l.length - 1)).length := by
    simpa [swapRemove] using hj1
  show ((l.set idx (l.getD (l.length - 1) default)).take (l.length - 1))[j] = _
  rw [List.getElem_take]
  rw [List.getElem_set]
  split
  · simp_all
  · split
    · omega
    · exact (getD_eq_getElem l j (by omega)).symm

theorem swapRemove_mem {α : Type} [Inhabited α] (l : List α) (idx : Nat) (x : α)
    (hnd : l.Nodup) (hidx : idx < l.length) :
    x ∈ swapRemove l idx ↔ x ∈ l ∧ x ≠ l.getD idx default := by
  have hinj := List.nodup_iff_injective_getElem.mp hnd
  constructor
  · intro hx
    obtain ⟨j, hj, hjx⟩ := List.mem_iff_getElem.mp hx
    rw [swapRemove_length] at hj
    rw [← getD_eq_getElem _ _ (by rw [swapRemove_length]; omega),
      swapRemove_getElem l idx j hidx hj] at hjx
    by_cases hji : j = idx
    · subst hji
      rw [if_pos rfl] at hjx
      refine ⟨?_, ?_⟩
      · rw [← hjx, getD_eq_getElem _ _ (by omega)]
        exact List.getElem_mem _
      · rw [← hjx, getD_eq_getElem _ _ (by omega), getD_eq_getElem _ _ hidx]
        intro he
        have := @hinj ⟨l.length - 1, by omega⟩ ⟨j, hidx⟩ he
        simp at this
        omega
    · rw [if_neg hji] at hjx
      refine ⟨?_, ?_⟩
      · rw [← hjx, getD_eq_getElem _ _ (by omega)]
        exact List.getElem_mem _
      · rw [← hjx, getD_eq_getElem _ _ (by omega), getD_eq_getElem _ _ hidx]
        intro he
        have := @hinj ⟨j, by omega⟩ ⟨idx, hidx⟩ he
        simp at this
        omega
  · rintro ⟨hx, hxv⟩
    obtain ⟨j, hj, hjx⟩ := List.mem_iff_getElem.mp hx
    have hji : j ≠ idx := by
      intro he
      subst he
      exact hxv (by rw [← hjx, getD_eq_getElem _ _ hj])
    rcases Nat.lt_or_ge j (l.length - 1) with hjlt | hjge
    · refine List.mem_iff_getElem.mpr ⟨j, by rw [swapRemove_length]; omega, ?_⟩
      rw [← getD_eq_getElem _ _ (by rw [swapRemove_length]; omega),
        swapRemove_getElem l idx j hidx hjlt, if_neg hji, getD_eq_getElem _ _ hj, hjx]
    · -- j = l.length - 1, so x is the last element; it lands at position idx
      have hje : j = l.length - 1 := by omega
      have hidx' : idx < l.length - 1 := by omega
      refine List.mem_iff_getElem.mpr ⟨idx, by rw [swapRemove_length]; omega, ?_⟩
      rw [← getD_eq_getElem _ _ (by rw [swapRemove_length]; omega),
        swapRemove_getElem l idx idx hidx hidx', if_pos rfl, ← hje,
        getD_eq_getElem _ _ hj, hjx]

theorem swapRemove_nodup {α : Type} [Inhabited α] (l : List α) (idx : Nat)
    (hnd : l.Nodup) (hidx : idx < l.length) : (swapRemove l idx).Nodup := by
  have hinj := List.nodup_iff_injective_getElem.mp hnd
  rw [List.nodup_iff_injective_getElem]
  rintro ⟨i, hi⟩ ⟨j, hj⟩ he
  rw [swapRemove_length] at hi hj
  simp only at he
  rw [← getD_eq_getElem _ _ (by rw [swapRemove_length]; omega),
    ← getD_eq_getElem _ _ (by rw [swapRemove_length]; omega),
    swapRemove_getElem l idx i hidx hi, swapRemove_getElem l idx j hidx hj] at he
  have hfin : ∀ a b : Nat, a < l.length → b < l.length →
      l.getD a default = l.getD b default → a = b := by
    intro a b ha hb hab
    rw [getD_eq_getElem _ _ ha, getD_eq_getElem _ _ hb] at hab
    have := @hinj ⟨a, ha⟩ ⟨b, hb⟩ hab
    simpa using this
  split at he <;> split at he
  · simp only [Fin.mk.injEq]; omega
  · exfalso
    have := hfin (l.length - 1) j (by omega) (by omega) he
    omega
  · exfalso
    have := hfin i (l.length - 1) (by omega) (by omega) he
    omega
  · have := hfin i j (by omega) (by omega) he
    simpa using this

theorem swapRemove_toFinset (l : List ℕ) (idx : Nat)
    (hnd : l.Nodup) (hidx : idx < l.length) :
    (swapRemove l idx).toFinset = l.toFinset.erase (l.getD idx 0) := by
  ext x
  simp only [List.mem_toFinset, Finset.mem_erase]
  rw [swapRemove_mem l idx x hnd hidx]
  constructor
  · rintro ⟨h1, h2⟩; exact ⟨h2, h1⟩
  · rintro ⟨h1, h2⟩; exact ⟨h2, h1⟩

theorem sub32_ge_min (a b : Int) : ScaledDistance.MIN ≤ sub32 a b := wrap32_lb _

theorem sub32_le_max (a b : Int) : sub32 a b ≤ ScaledDistance.MAX := wrap32_ub _

theorem mstScanGo_spec (sdz : EdgeDataMatrixZeroRemoved Int)
    (esz : EdgeDataMatrixZeroRemoved EdgeState) (π : List Int) (curr : Nat) :
    ∀ (rem : List Nat) (idx0 : Nat) (acc acc' : ScanAcc),
      rem.Nodup →
      acc.bestPred.length = acc.bestCost.length →
      (∀ v ∈ rem, v < acc.bestCost.length) →
      acc.cheapestEdge ≤ ScaledDistance.MAX →
      (∀ i v, acc.cheapestNode = some (i, v) →
        acc.bestCost.getD v 0 < ScaledDistance.MAX) →
      mstScanGo sdz esz π curr rem idx0 acc = some acc' →
      acc'.bestCost.length = acc.bestCost.length ∧
      acc'.bestPred.length = acc.bestPred.length ∧
      (∀ v, (acc'.bestCost.getD v 0 = acc.bestCost.getD v 0 ∧
             acc'.bestPred.getD v 0 = acc.bestPred.getD v 0) ∨
            acc'.bestPred.getD v 0 = curr) ∧
      (∀ v, acc.bestCost.getD v 0 = ScaledDistance.MIN →
            acc'.bestCost.getD v 0 = ScaledDistance.MIN) ∧
      (∀ v ∈ rem, esz.adj curr v = .Fixed →
            acc.bestCost.getD v 0 ≠ ScaledDistance.MIN ∧
            acc'.bestCost.getD v 0 = ScaledDistance.MIN) ∧
      (∀ i v, acc'.cheapestNode = some (i, v) →
        (acc.cheapestNode = some (i, v) ∨
          ∃ j, j < rem.length ∧ i = idx0 + j ∧ rem.getD j 0 = v) ∧
        acc'.bestCost.getD v 0 < ScaledDistance.MAX) := by
  intro rem
  induction rem with
  | nil =>
    intro idx0 acc acc' _ _ _ hche hchn hrun
    simp only [mstScanGo] at hrun
    cases hrun
    refine ⟨rfl, rfl, fun v => Or.inl ⟨rfl, rfl⟩, fun v h => h, by simp, ?_⟩
    intro i v hv
    exact ⟨Or.inl hv, hchn i v hv⟩
  | cons next rest ih =>
    intro idx0 acc acc' hnd hlen hrange hche hchn hrun
    have hndr : rest.Nodup := (List.nodup_cons.mp hnd).2
    have hnmem : next ∉ rest := (List.nodup_cons.mp hnd).1
    have hnextlt : next < acc.bestCost.length := hrange next (List.mem_cons_self next rest)
    have hnextlt' : next < acc.bestPred.length := by omega
    rw [mstScanGo] at hrun
    rcases hstate : esz.adj curr next with _ | _ | _ <;> rw [hstate] at hrun
    case Excluded =>
      obtain ⟨l1, l2, hd, hs, hf, hc⟩ := ih (idx0 + 1) acc acc' hndr hlen
        (fun v hv => hrange v (List.mem_cons_of_mem next hv)) hche hchn hrun
      refine ⟨l1, l2, hd, hs, ?_, ?_⟩
      · intro v hv hfix
        rcases List.mem_cons.mp hv with rfl | hv'
        · rw [hstate] at hfix; cases hfix
        · exact hf v hv' hfix
      · intro i v hv
        obtain ⟨hor, hlt⟩ := hc i v hv
        refine ⟨?_, hlt⟩
        rcases hor with h | ⟨j, hj, hij, hjv⟩
        · exact Or.inl h
        · exact Or.inr ⟨j + 1, by simpa using hj, by omega, by simpa using hjv⟩
    case Available =>
      dsimp only at hrun
      set adjusted := sub32 (sub32 (sdz.adj curr next) (π.getD curr 0)) (π.getD next 0)
        with hadj
      -- acc1: the accumulator after the conditional best-cost update
      by_cases hwr : adjusted < acc.bestCost.getD next 0
      · rw [if_pos hwr] at hrun
        set bc1 := acc.bestCost.set next adjusted with hbc1
        set bp1 := acc.bestPred.set next curr with hbp1
        have hbc1next : bc1.getD next 0 = adjusted := getD_set_self _ _ _ hnextlt
        have hbc1other : ∀ v, v ≠ next → bc1.getD v 0 = acc.bestCost.getD v 0 :=
          fun v hv => getD_set_ne _ _ _ _ (fun h => hv h.symm)
        have hbp1next : bp1.getD next 0 = curr := getD_set_self _ _ _ hnextlt'
        have hbp1other : ∀ v, v ≠ next → bp1.getD v 0 = acc.bestPred.getD v 0 :=
          fun v hv => getD_set_ne _ _ _ _ (fun h => hv h.symm)
        have hlen1 : bc1.length = acc.bestCost.length := by simp [hbc1]
        have hlen1' : bp1.length = acc.bestPred.length := by simp [hbp1]
        by_cases hch : bc1.getD next 0 < acc.cheapestEdge
        · rw [if_pos hch] at hrun
          obtain ⟨l1, l2, hd, hs, hf, hc⟩ := ih (idx0 + 1)
            ⟨bc1, bp1, bc1.getD next 0, some (idx0, next)⟩ acc' hndr (by simp [hlen1, hlen1', hlen])
            (by intro v hv; rw [hlen1]; exact hrange v (List.mem_cons_of_mem next hv))
            (le_trans (le_of_lt hch) hche)
            (by
              intro i v hv
              simp only [Option.some.injEq, Prod.mk.injEq] at hv
              obtain ⟨rfl, rfl⟩ := hv
              dsimp only
              rw [hbc1next]
              calc adjusted = bc1.getD next 0 := hbc1next.symm
                _ < acc.cheapestEdge := hch
                _ ≤ ScaledDistance.MAX := hche) hrun
          dsimp only at l1 l2 hd hs hf hc
          refine ⟨by rw [l1, hlen1], by rw [l2, hlen1'], ?_, ?_, ?_, ?_⟩
          · intro v
            by_cases hv : v = next
            · subst hv
              rcases hd v with ⟨_, h2⟩ | h2
              · exact Or.inr (by rw [h2, hbp1next])
              · exact Or.inr h2
            · rcases hd v with ⟨h1, h2⟩ | h2
              · exact Or.inl ⟨by rw [h1, hbc1other v hv], by rw [h2, hbp1other v hv]⟩
              · exact Or.inr h2
          · intro v hv
            by_cases hvn : v = next
            · subst hvn
              exfalso
              have hge := sub32_ge_min (sub32 (sdz.adj curr v) (π.getD curr 0)) (π.getD v 0)
              rw [← hadj] at hge
              rw [hv] at hwr
              omega
            · exact hs v (by rw [hbc1other v hvn]; exact hv)
          · intro v hv hfix
            rcases List.mem_cons.mp hv with rfl | hv'
            · rw [hstate] at hfix; cases hfix
            · have hvn : v ≠ next := fun h => hnmem (h ▸ hv')
              obtain ⟨ha, hb⟩ := hf v hv' hfix
              exact ⟨by rw [hbc1other v hvn] at ha; exact ha, hb⟩
          · intro i v hv
            obtain ⟨hor, hlt⟩ := hc i v hv
            refine ⟨?_, hlt⟩
            rcases hor with h | ⟨j, hj, hij, hjv⟩
            · simp only [Option.some.injEq, Prod.mk.injEq] at h
              obtain ⟨rfl, rfl⟩ := h
              exact Or.inr ⟨0, by simp, by omega, by simp⟩
            · exact Or.inr ⟨j + 1, by simpa using hj, by omega, by simpa using hjv⟩
        · rw [if_neg hch] at hrun
          obtain ⟨l1, l2, hd, hs, hf, hc⟩ := ih (idx0 + 1)
            ⟨bc1, bp1, acc.cheapestEdge, acc.cheapestNode⟩ acc' hndr
            (by simp [hlen1, hlen1', hlen])
            (by intro v hv; rw [hlen1]; exact hrange v (List.mem_cons_of_mem next hv))
            hche
            (by
              intro i v hv
              dsimp only at hv ⊢
              have hbase := hchn i v hv
              by_cases hvn : v = next
              · subst hvn
                rw [hbc1next]
                omega
              · rw [hbc1other v hvn]
                exact hbase) hrun
          dsimp only at l1 l2 hd hs hf hc
          refine ⟨by rw [l1, hlen1], by rw [l2, hlen1'], ?_, ?_, ?_, ?_⟩
          · intro v
            by_cases hv : v = next
            · subst hv
              rcases hd v with ⟨_, h2⟩ | h2
              · exact Or.inr (by rw [h2, hbp1next])
              · exact Or.inr h2
            · rcases hd v with ⟨h1, h2⟩ | h2
              · exact Or.inl ⟨by rw [h1, hbc1other v hv], by rw [h2, hbp1other v hv]⟩
              · exact Or.inr h2
          · intro v hv
            by_cases hvn : v = next
            · subst hvn
              exfalso
              have hge := sub32_ge_min (sub32 (sdz.adj curr v) (π.getD curr 0)) (π.getD v 0)
              rw [← hadj] at hge
              rw [hv] at hwr
              omega
            · exact hs v (by rw [hbc1other v hvn]; exact hv)
          · intro v hv hfix
            rcases List.mem_cons.mp hv with rfl | hv'
            · rw [hstate] at hfix; cases hfix
            · have hvn : v ≠ next := fun h => hnmem (h ▸ hv')
              obtain ⟨ha, hb⟩ := hf v hv' hfix
              exact ⟨by rw [hbc1other v hvn] at ha; exact ha, hb⟩
          · intro i v hv
            obtain ⟨hor, hlt⟩ := hc i v hv
            refine ⟨?_, hlt⟩
            rcases hor with h | ⟨j, hj, hij, hjv⟩
            · exact Or.inl h
            · exact Or.inr ⟨j + 1, by simpa using hj, by omega, by simpa using hjv⟩
      · rw [if_neg hwr] at hrun
        by_cases hch : acc.bestCost.getD next 0 < acc.cheapestEdge
        · rw [if_pos hch] at hrun
          obtain ⟨l1, l2, hd, hs, hf, hc⟩ := ih (idx0 + 1)
            ⟨acc.bestCost, acc.bestPred, acc.bestCost.getD next 0, some (idx0, next)⟩ acc'
            hndr hlen
            (fun v hv => hrange v (List.mem_cons_of_mem next hv))
            (le_trans (le_of_lt hch) hche)
            (by
              intro i v hv
              simp only [Option.some.injEq, Prod.mk.injEq] at hv
              obtain ⟨rfl, rfl⟩ := hv
              dsimp only
              omega) hrun
          dsimp only at l1 l2 hd hs hf hc
          refine ⟨l1, l2, hd, hs, ?_, ?_⟩
          · intro v hv hfix
            rcases List.mem_cons.mp hv with rfl | hv'
            · rw [hstate] at hfix; cases hfix
            · exact hf v hv' hfix
          · intro i v hv
            obtain ⟨hor, hlt⟩ := hc i v hv
            refine ⟨?_, hlt⟩
            rcases hor with h | ⟨j, hj, hij, hjv⟩
            · simp only [Option.some.injEq, Prod.mk.injEq] at h
              obtain ⟨rfl, rfl⟩ := h
              exact Or.inr ⟨0, by simp, by omega, by simp⟩
            · exact Or.inr ⟨j + 1, by simpa using hj, by omega, by simpa using hjv⟩
        · rw [if_neg hch] at hrun
          obtain ⟨l1, l2, hd, hs, hf, hc⟩ := ih (idx0 + 1) acc acc' hndr hlen
            (fun v hv => hrange v (List.mem_cons_of_mem next hv)) hche hchn hrun
          refine ⟨l1, l2, hd, hs, ?_, ?_⟩
          · intro v hv hfix
            rcases List.mem_cons.mp hv with rfl | hv'
            · rw [hstate] at hfix; cases hfix
            · exact hf v hv' hfix
          · intro i v hv
            obtain ⟨hor, hlt⟩ := hc i v hv
            refine ⟨?_, hlt⟩
            rcases hor with h | ⟨j, hj, hij, hjv⟩
            · exact Or.inl h
            · exact Or.inr ⟨j + 1, by simpa using hj, by omega, by simpa using hjv⟩
    case Fixed =>
      by_cases hmin : acc.bestCost.getD next 0 = ScaledDistance.MIN
      · rw [if_pos hmin] at hrun
        cases hrun
      · rw [if_neg hmin] at hrun
        dsimp only at hrun
        set bc1 := acc.bestCost.set next ScaledDistance.MIN with hbc1
        set bp1 := acc.bestPred.set next curr with hbp1
        have hbc1next : bc1.getD next 0 = ScaledDistance.MIN := getD_set_self _ _ _ hnextlt
        have hbc1other : ∀ v, v ≠ next → bc1.getD v 0 = acc.bestCost.getD v 0 :=
          fun v hv => getD_set_ne _ _ _ _ (fun h => hv h.symm)
        have hbp1next : bp1.getD next 0 = curr := getD_set_self _ _ _ hnextlt'
        have hbp1other : ∀ v, v ≠ next → bp1.getD v 0 = acc.bestPred.getD v 0 :=
          fun v hv => getD_set_ne _ _ _ _ (fun h => hv h.symm)
        have hlen1 : bc1.length = acc.bestCost.length := by simp [hbc1]
        have hlen1' : bp1.length = acc.bestPred.length := by simp [hbp1]
        have hminmax : ScaledDistance.MIN < ScaledDistance.MAX := by
          simp only [ScaledDistance.MIN, ScaledDistance.MAX, I32MIN, I32MAX]
          norm_num
        by_cases hch : bc1.getD next 0 < acc.cheapestEdge
        · rw [if_pos hch] at hrun
          obtain ⟨l1, l2, hd, hs, hf, hc⟩ := ih (idx0 + 1)
            ⟨bc1, bp1, bc1.getD next 0, some (idx0, next)⟩ acc' hndr
            (by simp [hlen1, hlen1', hlen])
            (by intro v hv; rw [hlen1]; exact hrange v (List.mem_cons_of_mem next hv))
            (le_trans (le_of_lt hch) hche)
            (by
              intro i v hv
              simp only [Option.some.injEq, Prod.mk.injEq] at hv
              obtain ⟨rfl, rfl⟩ := hv
              dsimp only
              rw [hbc1next]
              exact hminmax) hrun
          dsimp only at l1 l2 hd hs hf hc
          refine ⟨by rw [l1, hlen1], by rw [l2, hlen1'], ?_, ?_, ?_, ?_⟩
          · intro v
            by_cases hv : v = next
            · subst hv
              rcases hd v with ⟨_, h2⟩ | h2
              · exact Or.inr (by rw [h2, hbp1next])
              · exact Or.inr h2
            · rcases hd v with ⟨h1, h2⟩ | h2
              · exact Or.inl ⟨by rw [h1, hbc1other v hv], by rw [h2, hbp1other v hv]⟩
              · exact Or.inr h2
          · intro v hv
            by_cases hvn : v = next
            · subst hvn; exact absurd hv hmin
            · exact hs v (by rw [hbc1other v hvn]; exact hv)
          · intro v hv hfix
            rcases List.mem_cons.mp hv with rfl | hv'
            · exact ⟨hmin, hs v hbc1next⟩
            · have hvn : v ≠ next := fun h => hnmem (h ▸ hv')
              obtain ⟨ha, hb⟩ := hf v hv' hfix
              exact ⟨by rw [hbc1other v hvn] at ha; exact ha, hb⟩
          · intro i v hv
            obtain ⟨hor, hlt⟩ := hc i v hv
            refine ⟨?_, hlt⟩
            rcases hor with h | ⟨j, hj, hij, hjv⟩
            · simp only [Option.some.injEq, Prod.mk.injEq] at h
              obtain ⟨rfl, rfl⟩ := h
              exact Or.inr ⟨0, by simp, by omega, by simp⟩
            · exact Or.inr ⟨j + 1, by simpa using hj, by omega, by simpa using hjv⟩
        · rw [if_neg hch] at hrun
          obtain ⟨l1, l2, hd, hs, hf, hc⟩ := ih (idx0 + 1)
            ⟨bc1, bp1, acc.cheapestEdge, acc.cheapestNode⟩ acc' hndr
            (by simp [hlen1, hlen1', hlen])
            (by intro v hv; rw [hlen1]; exact hrange v (List.mem_cons_of_mem next hv))
            hche
            (by
              intro i v hv
              dsimp only at hv ⊢
              have hbase := hchn i v hv
              by_cases hvn : v = next
              · subst hvn
                rw [hbc1next]
                exact hminmax
              · rw [hbc1other v hvn]
                exact hbase) hrun
          dsimp only at l1 l2 hd hs hf hc
          refine ⟨by rw [l1, hlen1], by rw [l2, hlen1'], ?_, ?_, ?_, ?_⟩
          · intro v
            by_cases hv : v = next
            · subst hv
              rcases hd v with ⟨_, h2⟩ | h2
              · exact Or.inr (by rw [h2, hbp1next])
              · exact Or.inr h2
            · rcases hd v with ⟨h1, h2⟩ | h2
              · exact Or.inl ⟨by rw [h1, hbc1other v hv], by rw [h2, hbp1other v hv]⟩
              · exact Or.inr h2
          · intro v hv
            by_cases hvn : v = next
            · subst hvn; exact absurd hv hmin
            · exact hs v (by rw [hbc1other v hvn]; exact hv)
          · intro v hv hfix
            rcases List.mem_cons.mp hv with rfl | hv'
            · exact ⟨hmin, hs v hbc1next⟩
            · have hvn : v ≠ next := fun h => hnmem (h ▸ hv')
              obtain ⟨ha, hb⟩ := hf v hv' hfix
              exact ⟨by rw [hbc1other v hvn] at ha; exact ha, hb⟩
          · intro i v hv
            obtain ⟨hor, hlt⟩ := hc i v hv
            refine ⟨?_, hlt⟩
            rcases hor with h | ⟨j, hj, hij, hjv⟩
            · exact Or.inl h
            · exact Or.inr ⟨j + 1, by simpa using hj, by omega, by simpa using hjv⟩

theorem getD_eq_getElemD {α : Type} (l : List α) (j : Nat) (d : α) (h : j < l.length) :
    l.getD j d = l[j] := by
  simp [List.getD_eq_getElem?_getD, List.getElem?_eq_getElem h]

theorem reachF_cons (e : UnEdge) (l : List UnEdge) (A : Finset ℕ) :
    reachF (e :: l) A =
      reachF l (if e.efrom ∈ A ∨ e.eto ∈ A then insert e.eto (insert e.efrom A) else A) := rfl

theorem mstLoop_inv (sdz : EdgeDataMatrixZeroRemoved Int)
    (esz : EdgeDataMatrixZeroRemoved EdgeState) (π : List Int) (N : Nat) :
    ∀ (k : Nat) (rem : List Nat) (bc : List Int) (bp : List Nat) (curr : Nat)
      (tree t : List UnEdge) (A : Finset ℕ),
      rem.length = k →
      rem.Nodup →
      (∀ x ∈ rem, 2 ≤ x ∧ x ≤ N) →
      (∀ x ∈ rem, x ∉ A) →
      (∀ x ∈ A, 1 ≤ x ∧ x ≤ N) →
      curr ∈ A →
      bc.length = N + 1 →
      bp.length = N + 1 →
      (∀ v, v ≤ N → bc.getD v 0 < ScaledDistance.MAX → bp.getD v 0 ∈ A) →
      mstLoop sdz esz π k rem bc bp curr tree = some t →
      ∃ ext, t = tree ++ ext ∧ ext.length = k ∧
        (∀ e ∈ ext, 1 ≤ e.efrom ∧ e.efrom ≤ N ∧ 2 ≤ e.eto ∧ e.eto ≤ N ∧ e.efrom ≠ e.eto) ∧
        reachF ext A = A ∪ rem.toFinset := by
  intro k
  induction k with
  | zero =>
    intro rem bc bp curr tree t A hk _ _ _ _ _ _ _ _ hrun
    rw [mstLoop] at hrun
    cases hrun
    have hnil : rem = [] := List.eq_nil_of_length_eq_zero hk
    subst hnil
    exact ⟨[], by simp, rfl, by simp, by simp [reachF]⟩
  | succ k ih =>
    intro rem bc bp curr tree t A hk hnd hremB hdisj hAB hcurrA hbc hbp hinv hrun
    rw [mstLoop] at hrun
    cases hscan : mstScanGo sdz esz π curr rem 0 ⟨bc, bp, ScaledDistance.MAX, none⟩ with
    | none => rw [hscan] at hrun; cases hrun
    | some acc =>
      rw [hscan] at hrun
      dsimp only at hrun
      cases hchn : acc.cheapestNode with
      | none => rw [hchn] at hrun; cases hrun
      | some pair =>
        obtain ⟨index, cheapest⟩ := pair
        rw [hchn] at hrun
        obtain ⟨l1, l2, hd, hs, hf, hc⟩ := mstScanGo_spec sdz esz π curr rem 0
          ⟨bc, bp, ScaledDistance.MAX, none⟩ acc hnd (by dsimp only; omega)
          (by intro v hv; dsimp only; have := hremB v hv; omega)
          (le_refl _) (by simp) hscan
        dsimp only at l1 l2 hd hs hf hc
        obtain ⟨hprov, hltmax⟩ := hc index cheapest hchn
        rcases hprov with h | ⟨j, hj, hij, hjv⟩
        · cases h
        · have hijj : index = j := by omega
          subst hijj
          have hidx : index < rem.length := hj
          have hmem : cheapest ∈ rem := by
            rw [← hjv, getD_eq_getElemD _ _ _ hidx]
            exact List.getElem_mem _
          have hcheB := hremB cheapest hmem
          have hbpA : acc.bestPred.getD cheapest 0 ∈ A := by
            rcases hd cheapest with ⟨h1, h2⟩ | h2
            · rw [h2]
              exact hinv cheapest (by omega) (by rw [← h1]; exact hltmax)
            · rw [h2]; exact hcurrA
          have hbpAB := hAB _ hbpA
          have hne : acc.bestPred.getD cheapest 0 ≠ cheapest :=
            fun h => hdisj cheapest hmem (h ▸ hbpA)
          obtain ⟨ext', hext', hlen', hB', hreach'⟩ := ih (swapRemove rem index)
            acc.bestCost acc.bestPred cheapest
            (tree ++ [⟨acc.bestPred.getD cheapest 0, cheapest⟩]) t (insert cheapest A)
            (by rw [swapRemove_length]; omega)
            (swapRemove_nodup rem index hnd hidx)
            (fun x hx => hremB x ((swapRemove_mem rem index x hnd hidx).mp hx).1)
            (by
              intro x hx
              obtain ⟨hx1, hx2⟩ := (swapRemove_mem rem index x hnd hidx).mp hx
              simp only [show (default : ℕ) = 0 from rfl] at hx2
              rw [hjv] at hx2
              simp only [Finset.mem_insert]
              push_neg
              exact ⟨hx2, hdisj x hx1⟩)
            (by
              intro x hx
              rcases Finset.mem_insert.mp hx with rfl | hx'
              · omega
              · exact hAB x hx')
            (Finset.mem_insert_self _ _)
            (by rw [l1]; exact hbc)
            (by rw [l2]; exact hbp)
            (by
              intro v hvN hvlt
              rcases hd v with ⟨h1, h2⟩ | h2
              · rw [h2]
                exact Finset.mem_insert_of_mem (hinv v hvN (by rw [← h1]; exact hvlt))
              · rw [h2]
                exact Finset.mem_insert_of_mem hcurrA)
            hrun
          refine ⟨⟨acc.bestPred.getD cheapest 0, cheapest⟩ :: ext', ?_, by simp [hlen'], ?_, ?_⟩
          · rw [hext']
            simp
          · intro e he
            rcases List.mem_cons.mp he with rfl | he'
            · exact ⟨hbpAB.1, hbpAB.2, hcheB.1, hcheB.2, hne⟩
            · exact hB' e he'
          · rw [reachF_cons]
            dsimp only
            rw [if_pos (Or.inl hbpA)]
            rw [Finset.insert_eq_self.mpr hbpA]
            rw [hreach', swapRemove_toFinset rem index hnd hidx, hjv]
            ext x
            simp only [Finset.mem_union, Finset.mem_insert, Finset.mem_erase,
              List.mem_toFinset]
            by_cases hxc : x = cheapest
            · subst hxc
              simp [hmem]
            · constructor
              · rintro ((h | h) | h)
                · exact absurd h hxc
                · exact Or.inl h
                · exact Or.inr h.2
              · rintro (h | h)
                · exact Or.inl (Or.inr h)
                · exact Or.inr ⟨hxc, h⟩

theorem one_tree_scan_spec (es0 : List EdgeState) :
    ∀ (ps : List (Nat × Int)) (acc acc' : ZeroScanAcc),
      (ps.map Prod.fst).Nodup →
      (∀ a, acc.cheapest_neighbor_a = some a → a ∉ ps.map Prod.fst) →
      (∀ b, acc.cheapest_neighbor_b = some b → b ∉ ps.map Prod.fst) →
      (acc.cheapest_neighbor_a = none → acc.dist_cheapest_edge_a = ScaledDistance.MAX ∧
        acc.dist_cheapest_edge_b = ScaledDistance.MAX) →
      (∀ a b, acc.cheapest_neighbor_a = some a → acc.cheapest_neighbor_b = some b → a ≠ b) →
      (acc.cheapest_neighbor_b.isSome = true → acc.cheapest_neighbor_a.isSome = true) →
      one_tree_scan es0 ps acc = some acc' →
      (∀ a, acc'.cheapest_neighbor_a = some a →
        acc.cheapest_neighbor_a = some a ∨ a ∈ ps.map Prod.fst) ∧
      (∀ b, acc'.cheapest_neighbor_b = some b →
        acc.cheapest_neighbor_b = some b ∨ acc.cheapest_neighbor_a = some b ∨
          b ∈ ps.map Prod.fst) ∧
      (acc'.cheapest_neighbor_b.isSome = true → acc'.cheapest_neighbor_a.isSome = true) ∧
      (∀ a b, acc'.cheapest_neighbor_a = some a → acc'.cheapest_neighbor_b = some b →
        a ≠ b) := by
  intro ps
  induction ps with
  | nil =>
    intro acc acc' _ _ _ _ hne hba hrun
    simp only [one_tree_scan] at hrun
    cases hrun
    exact ⟨fun a ha => Or.inl ha, fun b hb => Or.inl hb, hba, hne⟩
  | cons p rest ih =>
    obtain ⟨x, d⟩ := p
    intro acc acc' hnd hnaF hnbF hnone hne hba hrun
    have hnd2 : (x :: rest.map Prod.fst).Nodup := by simpa using hnd
    have hndr : (rest.map Prod.fst).Nodup := (List.nodup_cons.mp hnd2).2
    have hxrest : x ∉ rest.map Prod.fst := (List.nodup_cons.mp hnd2).1
    rw [one_tree_scan] at hrun
    rcases hstate : es0.getD x default with _ | _ | _ <;> rw [hstate] at hrun
    case Excluded =>
      obtain ⟨z1, z2, z3, z4⟩ := ih acc acc' hndr
        (fun a ha => fun hm => hnaF a ha (by simp [hm]))
        (fun b hb => fun hm => hnbF b hb (by simp [hm]))
        hnone hne hba hrun
      refine ⟨?_, ?_, z3, z4⟩
      · intro a ha
        rcases z1 a ha with h | h
        · exact Or.inl h
        · exact Or.inr (by simp [h])
      · intro b hb
        rcases z2 b hb with h | h | h
        · exact Or.inl h
        · exact Or.inr (Or.inl h)
        · exact Or.inr (Or.inr (by simp [h]))
    case Available =>
      by_cases h1 : d < acc.dist_cheapest_edge_a
      · rw [if_pos h1] at hrun
        obtain ⟨z1, z2, z3, z4⟩ := ih
          ⟨d, acc.dist_cheapest_edge_a, some x, acc.cheapest_neighbor_a⟩ acc' hndr
          (by
            intro a ha
            simp only [Option.some.injEq] at ha
            subst ha
            exact hxrest)
          (fun b hb => fun hm => hnaF b hb (by simp [hm]))
          (by intro h; cases h)
          (by
            intro a b ha hb
            simp only [Option.some.injEq] at ha
            subst ha
            intro hab
            exact hnaF b hb (by simp [hab])
            )
          (by
            intro hb
            simp)
          hrun
        refine ⟨?_, ?_, z3, z4⟩
        · intro a ha
          rcases z1 a ha with h | h
          · simp only [Option.some.injEq] at h
            exact Or.inr (by simp [h])
          · exact Or.inr (by simp [h])
        · intro b hb
          rcases z2 b hb with h | h | h
          · exact Or.inr (Or.inl h)
          · simp only [Option.some.injEq] at h
            exact Or.inr (Or.inr (by simp [h]))
          · exact Or.inr (Or.inr (by simp [h]))
      · rw [if_neg h1] at hrun
        by_cases h2 : d < acc.dist_cheapest_edge_b
        · rw [if_pos h2] at hrun
          -- na must be some here: otherwise da = db = MAX contradicts the two tests
          have hna : acc.cheapest_neighbor_a.isSome = true := by
            rcases hh : acc.cheapest_neighbor_a with _ | a
            · obtain ⟨ha1, ha2⟩ := hnone hh
              rw [ha1] at h1
              rw [ha2] at h2
              omega
            · rfl
          obtain ⟨z1, z2, z3, z4⟩ := ih
            { acc with dist_cheapest_edge_b := d, cheapest_neighbor_b := some x } acc' hndr
            (fun a ha => fun hm => hnaF a ha (by simp [hm]))
            (by
              intro b hb
              simp only at hb
              simp only [Option.some.injEq] at hb
              subst hb
              exact hxrest)
            (by
              intro h
              dsimp only at h
              rw [h] at hna
              cases hna)
            (by
              intro a b ha hb
              dsimp only at ha hb
              simp only [Option.some.injEq] at hb
              subst hb
              intro hab
              exact hnaF a ha (by simp [hab])
              )
            (by
              intro _
              dsimp only
              exact hna)
            hrun
          refine ⟨?_, ?_, z3, z4⟩
          · intro a ha
            rcases z1 a ha with h | h
            · exact Or.inl h
            · exact Or.inr (by simp [h])
          · intro b hb
            rcases z2 b hb with h | h | h
            · dsimp only at h
              simp only [Option.some.injEq] at h
              exact Or.inr (Or.inr (by simp [h]))
            · exact Or.inr (Or.inl h)
            · exact Or.inr (Or.inr (by simp [h]))
        · rw [if_neg h2] at hrun
          obtain ⟨z1, z2, z3, z4⟩ := ih acc acc' hndr
            (fun a ha => fun hm => hnaF a ha (by simp [hm]))
            (fun b hb => fun hm => hnbF b hb (by simp [hm]))
            hnone hne hba hrun
          refine ⟨?_, ?_, z3, z4⟩
          · intro a ha
            rcases z1 a ha with h | h
            · exact Or.inl h
            · exact Or.inr (by simp [h])
          · intro b hb
            rcases z2 b hb with h | h | h
            · exact Or.inl h
            · exact Or.inr (Or.inl h)
            · exact Or.inr (Or.inr (by simp [h]))
    case Fixed =>
      by_cases hmin : acc.dist_cheapest_edge_b = ScaledDistance.MIN
      · rw [if_pos hmin] at hrun
        cases hrun
      · rw [if_neg hmin] at hrun
        obtain ⟨z1, z2, z3, z4⟩ := ih
          ⟨ScaledDistance.MIN, acc.dist_cheapest_edge_a, some x, acc.cheapest_neighbor_a⟩
          acc' hndr
          (by
            intro a ha
            simp only [Option.some.injEq] at ha
            subst ha
            exact hxrest)
          (fun b hb => fun hm => hnaF b hb (by simp [hm]))
          (by intro h; cases h)
          (by
            intro a b ha hb
            simp only [Option.some.injEq] at ha
            subst ha
            intro hab
            exact hnaF b hb (by simp [hab])
            )
          (by intro _; simp)
          hrun
        refine ⟨?_, ?_, z3, z4⟩
        · intro a ha
          rcases z1 a ha with h | h
          · simp only [Option.some.injEq] at h
            exact Or.inr (by simp [h])
          · exact Or.inr (by simp [h])
        · intro b hb
          rcases z2 b hb with h | h | h
          · exact Or.inr (Or.inl h)
          · simp only [Option.some.injEq] at h
            exact Or.inr (Or.inr (by simp [h]))
          · exact Or.inr (Or.inr (by simp [h]))

theorem zero_scan_indices_eq (l : List Int) :
    ((l.enum.drop 1).map Prod.fst) = (List.range l.length).drop 1 := by
  rw [List.map_drop, List.enum_map_fst]

theorem zero_scan_index_mem (l : List Int) (x : Nat)
    (hx : x ∈ ((l.enum.drop 1).map Prod.fst)) : 1 ≤ x ∧ x < l.length := by
  rw [zero_scan_indices_eq] at hx
  obtain ⟨i, hi, hval⟩ := List.mem_iff_getElem.mp hx
  rw [List.getElem_drop, List.getElem_range] at hval
  rw [List.length_drop, List.length_range] at hi
  omega

theorem zero_scan_indices_nodup (l : List Int) :
    ((l.enum.drop 1).map Prod.fst).Nodup := by
  rw [zero_scan_indices_eq]
  exact (List.drop_sublist 1 _).nodup (List.nodup_range _)

/-- Structure of a successful `min_one_tree` result: `n` edges, the last two
incident to node 0 with distinct positive endpoints, the rest a spanning
tree of `1 .. n-1`. -/
theorem min_one_tree_struct (sd : EdgeDataMatrix Int) (es : EdgeDataMatrix EdgeState)
    (π : List Int) (t : List UnEdge)
    (hrun : min_one_tree sd es π = some t) :
    t.length = sd.dimension ∧
    t.countP (fun e => decide (e.efrom = 0 ∨ e.eto = 0)) = 2 ∧
    ∃ tree a b, t = tree ++ [⟨0, a⟩, ⟨0, b⟩] ∧
      tree.length = sd.dimension - 2 ∧
      1 ≤ a ∧ a < sd.dimension ∧ 1 ≤ b ∧ b < sd.dimension ∧ a ≠ b ∧
      (∀ e ∈ tree, 1 ≤ e.efrom ∧ e.efrom ≤ sd.dimension - 1 ∧
        2 ≤ e.eto ∧ e.eto ≤ sd.dimension - 1 ∧ e.efrom ≠ e.eto) ∧
      reachF tree {1} = Finset.Icc 1 (sd.dimension - 1) := by
  rw [min_one_tree] at hrun
  cases hmst : min_spanning_tree (split_first_row sd).2 (split_first_row es).2 π with
  | none => rw [hmst] at hrun; cases hrun
  | some tree =>
    rw [hmst] at hrun
    cases hscan : one_tree_scan (split_first_row es).1 ((split_first_row sd).1.enum.drop 1)
        ⟨ScaledDistance.MAX, ScaledDistance.MAX, none, none⟩ with
    | none => rw [hscan] at hrun; cases hrun
    | some acc =>
      rw [hscan] at hrun
      dsimp only at hrun
      obtain ⟨z1, z2, z3, z4⟩ := one_tree_scan_spec (split_first_row es).1
        ((split_first_row sd).1.enum.drop 1)
        ⟨ScaledDistance.MAX, ScaledDistance.MAX, none, none⟩ acc
        (zero_scan_indices_nodup _)
        (by intro a ha; cases ha)
        (by intro b hb; cases hb)
        (fun _ => ⟨rfl, rfl⟩)
        (by intro a b ha _; cases ha)
        (by intro h; simp at h)
        hscan
      cases hnb : acc.cheapest_neighbor_b with
      | none => rw [hnb] at hrun; cases hrun
      | some b =>
        cases hna : acc.cheapest_neighbor_a with
        | none => rw [hnb, hna] at hrun; cases hrun
        | some a =>
          rw [hnb, hna] at hrun
          have ht : t = tree ++ [⟨0, a⟩, ⟨0, b⟩] := by
            cases hrun; rfl
          -- bounds on a and b from the scan spec
          have hza : 1 ≤ a ∧ a < (split_first_row sd).1.length := by
            rcases z1 a hna with h | h
            · cases h
            · exact zero_scan_index_mem _ a h
          have hzb : 1 ≤ b ∧ b < (split_first_row sd).1.length := by
            rcases z2 b hnb with h | h | h
            · cases h
            · cases h
            · exact zero_scan_index_mem _ b h
          have hab : a ≠ b := z4 a b hna hnb
          have hlen0 : (split_first_row sd).1.length ≤ sd.dimension := by
            dsimp only [split_first_row]
            simp
          have hdim3 : 3 ≤ sd.dimension := by
            rcases hza with ⟨ha1, ha2⟩
            rcases hzb with ⟨hb1, hb2⟩
            omega
          -- spanning-tree part from the Prim-loop invariant
          rw [min_spanning_tree] at hmst
          have hN : (split_first_row sd).2.dimension_adjusted = sd.dimension - 1 := rfl
          set N := sd.dimension - 1 with hNdef
          rw [hN] at hmst
          obtain ⟨ext, hext, hlen, hB, hreach⟩ := mstLoop_inv (split_first_row sd).2
            (split_first_row es).2 π N (N - 1) (List.range' 2 (N - 1))
            (List.replicate (N + 1) ScaledDistance.MAX)
            (List.replicate (N + 1) (N + 1)) 1 [] tree {1}
            (by simp)
            (by apply List.nodup_range' <;> norm_num)
            (by
              intro x hx
              rw [List.mem_range'_1] at hx
              omega)
            (by
              intro x hx
              rw [List.mem_range'_1] at hx
              simp only [Finset.mem_singleton]
              omega)
            (by
              intro x hx
              rw [Finset.mem_singleton] at hx
              subst hx
              omega)
            (Finset.mem_singleton_self 1)
            (by simp)
            (by simp)
            (by
              intro v hv hvlt
              rw [getD_eq_getElemD _ _ _ (by simp; omega), List.getElem_replicate] at hvlt
              exact absurd hvlt (lt_irrefl _))
            hmst
          simp only [List.nil_append] at hext
          subst hext
          have htreelen : tree.length = sd.dimension - 2 := by omega
          refine ⟨?_, ?_, tree, a, b, ht, htreelen, hza.1, by omega, hzb.1, by omega, hab,
            ?_, ?_⟩
          · rw [ht]
            simp only [List.length_append, List.length_cons, List.length_nil]
            omega
          · rw [ht, List.countP_append]
            have h0 : tree.countP (fun e => decide (e.efrom = 0 ∨ e.eto = 0)) = 0 := by
              rw [List.countP_eq_zero]
              intro e he
              obtain ⟨h1, _, h2, _⟩ := hB e he
              simp only [decide_eq_true_eq]
              omega
            rw [h0]
            rfl
          · intro e he
            exact hB e he
          · rw [hreach]
            ext x
            simp only [Finset.mem_union, Finset.mem_singleton, List.mem_toFinset,
              List.mem_range'_1, Finset.mem_Icc]
            omega

/-- **C10.** Whenever `min_one_tree` succeeds on an `n`-node instance, the
returned edge list has exactly `n` edges, exactly two of which are incident
to node 0 (they are the final two entries, with distinct positive endpoints),
and the remaining `n - 2` form a spanning tree of the nodes `1 .. n-1`: each
of those edges joins two distinct nodes of `1 .. n-1` and, grown from node 1,
they connect exactly the node set `1 .. n-1`. -/
theorem min_one_tree_shape (sd : EdgeDataMatrix Int) (es : EdgeDataMatrix EdgeState)
    (π : List Int) (t : List UnEdge)
    (hrun : min_one_tree sd es π = some t) :
    t.length = sd.dimension ∧
    t.countP (fun e => decide (e.efrom = 0 ∨ e.eto = 0)) = 2 ∧
    ∃ tree a b, t = tree ++ [⟨0, a⟩, ⟨0, b⟩] ∧
      tree.length = sd.dimension - 2 ∧
      1 ≤ a ∧ a < sd.dimension ∧ 1 ≤ b ∧ b < sd.dimension ∧ a ≠ b ∧
      (∀ e ∈ tree, 1 ≤ e.efrom ∧ e.efrom ≤ sd.dimension - 1 ∧
        2 ≤ e.eto ∧ e.eto ≤ sd.dimension - 1 ∧ e.efrom ≠ e.eto) ∧
      reachF tree {1} = Finset.Icc 1 (sd.dimension - 1) :=
  min_one_tree_struct sd es π t hrun

theorem min_one_tree_shape_witness :
    min_one_tree starScaled fourNodeStates [0, 0, 0, 0] =
      some [⟨1, 2⟩, ⟨1, 3⟩, ⟨0, 1⟩, ⟨0, 2⟩] ∧
    ([⟨1, 2⟩, ⟨1, 3⟩, ⟨0, 1⟩, ⟨0, 2⟩] : List UnEdge).length = starScaled.dimension :=
  ⟨by decide, (min_one_tree_shape starScaled fourNodeStates [0, 0, 0, 0] _ (by decide)).1⟩

theorem getD_set_self2 {α : Type} (l : List α) (i : Nat) (v d : α) (h : i < l.length) :
    (l.set i v).getD i d = v := by
  simp [List.getD_eq_getElem?_getD, List.getElem?_set_self, h]

theorem getD_set_ne2 {α : Type} (l : List α) (i j : Nat) (v d : α) (hij : i ≠ j) :
    (l.set i v).getD j d = l.getD j d := by
  simp [List.getD_eq_getElem?_getD, List.getElem?_set_ne hij]

theorem getD_oob {α : Type} (l : List α) (i : Nat) (d : α) (h : l.length ≤ i) :
    l.getD i d = d := by
  simp [List.getD_eq_getElem?_getD, List.getElem?_eq_none h]

theorem set_set_collapse {α : Type} (l : List α) (p q : Nat) (a b c d : α) :
    (((l.set p a).set q b).set p c).set q d = (l.set p c).set q d := by
  apply List.ext_getElem (by simp)
  intro i h1 h2
  simp only [List.getElem_set]
  split_ifs <;> rfl

theorem set_of_getD {α : Type} (l : List α) (p : Nat) (v d : α)
    (hv : l.getD p d = v) (hp : p < l.length) : l.set p v = l := by
  apply List.ext_getElem (by simp)
  intro i h1 h2
  rw [List.getElem_set]
  split
  · next h =>
    subst h
    rw [getD_eq_getElemD _ _ _ hp] at hv
    exact hv.symm
  · rfl

theorem flat_lt (f t n : Nat) (hf : f < n) (ht : t < n) : f * n + t < n * n := by
  calc f * n + t < (f + 1) * n := by
        rw [Nat.succ_mul]
        omega
    _ ≤ n * n := Nat.mul_le_mul_right n hf

theorem flat_inj (f t f' t' n : Nat) (ht : t < n) (ht' : t' < n)
    (h : f * n + t = f' * n + t') : f = f' ∧ t = t' := by
  have hn : 0 < n := by omega
  have h1 : (f * n + t) / n = f := by
    rw [Nat.add_comm, Nat.add_mul_div_right _ _ hn, Nat.div_eq_of_lt ht, Nat.zero_add]
  have h2 : (f' * n + t') / n = f' := by
    rw [Nat.add_comm, Nat.add_mul_div_right _ _ hn, Nat.div_eq_of_lt ht', Nat.zero_add]
  have h3 : (f * n + t) % n = t := by
    rw [Nat.add_comm, Nat.add_mul_mod_self_right, Nat.mod_eq_of_lt ht]
  have h4 : (f' * n + t') % n = t' := by
    rw [Nat.add_comm, Nat.add_mul_mod_self_right, Nat.mod_eq_of_lt ht']
  rw [h] at h1 h3
  rw [h1] at h2
  rw [h3] at h4
  exact ⟨h2, h4⟩

theorem symmStates_set_data_symmetric (es : EdgeDataMatrix EdgeState) (f t : Nat)
    (v : EdgeState) (hlen : es.data.length = es.dimension * es.dimension)
    (hf : f < es.dimension) (ht : t < es.dimension) (hs : symmStates es) :
    symmStates (es.set_data_symmetric f t v) := by
  intro f' hf' t' ht'
  simp only [EdgeDataMatrix.set_data_symmetric, EdgeDataMatrix.set_data] at hf' ht' ⊢
  rw [List.mem_range] at hf' ht'
  set n := es.dimension with hn
  have hp1 : f * n + t < es.data.length := by rw [hlen]; exact flat_lt f t n hf ht
  have hp2 : t * n + f < es.data.length := by rw [hlen]; exact flat_lt t f n ht hf
  have hq1 : f' * n + t' < es.data.length := by rw [hlen]; exact flat_lt f' t' n hf' ht'
  have hq2 : t' * n + f' < es.data.length := by rw [hlen]; exact flat_lt t' f' n ht' hf'
  by_cases e1 : f' * n + t' = t * n + f
  · obtain ⟨he1, he2⟩ := flat_inj f' t' t f n ht' hf e1
    have hq2 : t' * n + f' = f * n + t := by rw [he1, he2]
    rw [e1, getD_set_self2 _ _ _ _ (by simpa using hp2), hq2]
    by_cases e2 : t * n + f = f * n + t
    · rw [← e2, getD_set_self2 _ _ _ _ (by simpa using hp2)]
    · rw [getD_set_ne2 _ _ _ _ _ e2, getD_set_self2 _ _ _ _ hp1]
  · rw [getD_set_ne2 _ _ _ _ _ (fun h => e1 h.symm)]
    by_cases e2 : f' * n + t' = f * n + t
    · obtain ⟨he1, he2⟩ := flat_inj f' t' f t n ht' ht e2
      have hq2 : t' * n + f' = t * n + f := by rw [he1, he2]
      rw [e2, getD_set_self2 _ _ _ _ hp1, hq2,
        getD_set_self2 _ _ _ _ (by simpa using hp2)]
    · have e3 : t' * n + f' ≠ t * n + f := by
        intro h
        obtain ⟨he1, he2⟩ := flat_inj t' f' t f n hf' hf h
        exact e2 (by rw [he2, he1])
      have e4 : t' * n + f' ≠ f * n + t := by
        intro h
        obtain ⟨he1, he2⟩ := flat_inj t' f' f t n hf' ht h
        exact e1 (by rw [he2, he1])
      rw [getD_set_ne2 _ _ _ _ _ (fun h => e2 h.symm),
        getD_set_ne2 _ _ _ _ _ (fun h => e3 h.symm),
        getD_set_ne2 _ _ _ _ _ (fun h => e4 h.symm)]
      exact hs f' (by rw [List.mem_range]; exact hf') t' (by rw [List.mem_range]; exact ht')

theorem sds_length (es : EdgeDataMatrix EdgeState) (f t : Nat) (v : EdgeState) :
    (es.set_data_symmetric f t v).data.length = es.data.length := by
  simp [EdgeDataMatrix.set_data_symmetric, EdgeDataMatrix.set_data]

theorem sds_dimension (es : EdgeDataMatrix EdgeState) (f t : Nat) (v : EdgeState) :
    (es.set_data_symmetric f t v).dimension = es.dimension := rfl

theorem sds_restore (es : EdgeDataMatrix EdgeState) (f t : Nat) (v : EdgeState)
    (hlen : es.data.length = es.dimension * es.dimension)
    (hf : f < es.dimension) (ht : t < es.dimension)
    (hft : es.get_data f t = EdgeState.Available)
    (htf : es.get_data t f = EdgeState.Available) :
    (es.set_data_symmetric f t v).set_data_symmetric f t EdgeState.Available = es := by
  obtain ⟨data, n⟩ := es
  simp only [EdgeDataMatrix.set_data_symmetric, EdgeDataMatrix.set_data] at *
  congr 1
  rw [set_set_collapse]
  rw [set_of_getD data (f * n + t) _ default hft (by rw [hlen]; exact flat_lt f t n hf ht)]
  rw [set_of_getD data (t * n + f) _ default htf (by rw [hlen]; exact flat_lt t f n ht hf)]

theorem getD_set_total {α : Type} (l : List α) (i j : Nat) (v d : α) :
    (l.set i v).getD j d = if i = j ∧ i < l.length then v else l.getD j d := by
  by_cases hij : i = j
  · subst hij
    by_cases hi : i < l.length
    · simp [getD_set_self2 _ _ _ _ hi, hi]
    · rw [List.set_eq_of_length_le (by omega)]
      simp [hi]
  · simp [getD_set_ne2 _ _ _ _ _ hij, hij]

theorem list_eq_of_getD {α : Type} (l1 l2 : List α) (d : α) (hlen : l1.length = l2.length)
    (h : ∀ i, l1.getD i d = l2.getD i d) : l1 = l2 := by
  apply List.ext_getElem hlen
  intro i h1 h2
  have := h i
  rwa [getD_eq_getElemD _ _ _ h1, getD_eq_getElemD _ _ _ h2] at this

theorem fd_restore (fd : List Nat) (f t : Nat) :
    (((((fd.set f (fd.getD f 0 + 1)).set t
          ((fd.set f (fd.getD f 0 + 1)).getD t 0 + 1)).set f
            (((fd.set f (fd.getD f 0 + 1)).set t
              ((fd.set f (fd.getD f 0 + 1)).getD t 0 + 1)).getD f 0 - 1)).set t
      ((((fd.set f (fd.getD f 0 + 1)).set t
          ((fd.set f (fd.getD f 0 + 1)).getD t 0 + 1)).set f
            (((fd.set f (fd.getD f 0 + 1)).set t
              ((fd.set f (fd.getD f 0 + 1)).getD t 0 + 1)).getD f 0 - 1)).getD t 0 - 1)))
      = fd := by
  apply list_eq_of_getD _ _ 0 (by simp)
  intro i
  by_cases hfi : f = i
  · subst hfi
    by_cases hti : t = f
    · subst hti
      simp only [getD_set_total, List.length_set]
      split_ifs <;> omega
    · simp only [getD_set_total, List.length_set]
      split_ifs <;> omega
  · by_cases hti : t = i
    · subst hti
      simp only [getD_set_total, List.length_set]
      split_ifs <;> omega
    · simp only [getD_set_total, List.length_set]
      split_ifs <;> omega

theorem etb_fold_spec (scaled_distances : EdgeDataMatrix Int)
    (edge_states : EdgeDataMatrix EdgeState) (node_penalties : List Int) :
    ∀ (l : List UnEdge) (acc : Option UnEdge × Int) (e : UnEdge),
      (l.foldl
        (fun (acc : Option UnEdge × Int) e =>
          if edge_states.get_data e.efrom e.eto = .Available then
            let reduced_distance :=
              sub32 (sub32 (scaled_distances.get_data e.efrom e.eto)
                (node_penalties.getD e.efrom 0)) (node_penalties.getD e.eto 0)
            if reduced_distance < acc.2 then (some e, reduced_distance) else acc
          else acc)
        acc).1 = some e →
      acc.1 = some e ∨
        (e ∈ l ∧ edge_states.get_data e.efrom e.eto = EdgeState.Available) := by
  intro l
  induction l with
  | nil =>
    intro acc e h
    exact Or.inl h
  | cons x rest ih =>
    intro acc e h
    rw [List.foldl_cons] at h
    rcases ih _ e h with hacc | ⟨hmem, hav⟩
    · dsimp only at hacc
      split at hacc
      · next hav' =>
        split at hacc
        · injection hacc with h1
          subst h1
          exact Or.inr ⟨List.mem_cons_self _ _, hav'⟩
        · exact Or.inl hacc
      · exact Or.inl hacc
    · exact Or.inr ⟨List.mem_cons_of_mem _ hmem, hav⟩

theorem edge_to_branch_on_spec (scaled_distances : EdgeDataMatrix Int)
    (edge_states : EdgeDataMatrix EdgeState) (node_penalties : List Int)
    (one_tree : List UnEdge) (e : UnEdge)
    (h : edge_to_branch_on scaled_distances edge_states node_penalties one_tree = some e) :
    e ∈ one_tree ∧ edge_states.get_data e.efrom e.eto = EdgeState.Available := by
  rw [edge_to_branch_on] at h
  rcases etb_fold_spec scaled_distances edge_states node_penalties one_tree
      (none, ScaledDistance.MAX) e h with h' | h'
  · cases h'
  · exact h'

theorem hklbLast_lb_tree (d sd : EdgeDataMatrix Int) (es : EdgeDataMatrix EdgeState)
    (ub S : Int) (π : List Int) (blb lb : Int) (tr : List UnEdge) (π' : List Int)
    (h : hklbLast d sd es ub S π blb = (some (.LowerBound lb tr), π')) :
    min_one_tree sd es π = some tr := by
  rw [hklbLast] at h
  cases hmt : min_one_tree sd es π with
  | none =>
    rw [hmt] at h
    cases h
  | some ot =>
    rw [hmt] at h
    dsimp only at h
    split at h
    · injection h with h1 h2
      injection h1 with h3
      cases h3
      rfl
    · split at h
      · injection h with h1 h2
        injection h1 with h3
        cases h3
      · injection h with h1 h2
        injection h1 with h3
        cases h3
        rfl

theorem hklbAux_lb_tree (d sd : EdgeDataMatrix Int) (es : EdgeDataMatrix EdgeState)
    (ub S : Int) (β : Frac) :
    ∀ (fuel : Nat) (π : List Int) (α : Frac) (blb lb : Int) (tr : List UnEdge)
      (π' : List Int),
      hklbAux d sd es ub S β fuel π α blb = (some (.LowerBound lb tr), π') →
      ∃ π₀, min_one_tree sd es π₀ = some tr := by
  intro fuel
  induction fuel using Nat.strong_induction_on with
  | _ fuel ih =>
    rcases fuel with _ | fuel
    · intro π α blb lb tr π' h
      rw [hklbAux] at h
      exact ⟨π, hklbLast_lb_tree d sd es ub S π blb lb tr π' h⟩
    · rcases fuel with _ | fuelRest
      · intro π α blb lb tr π' h
        rw [hklbAux] at h
        exact ⟨π, hklbLast_lb_tree d sd es ub S π blb lb tr π' h⟩
      · intro π α blb lb tr π' h
        rw [hklbAux] at h
        cases hmt : min_one_tree sd es π with
        | none =>
          rw [hmt] at h
          cases h
        | some ot =>
          rw [hmt] at h
          dsimp only at h
          split at h
          · injection h with h1 h2
            injection h1 with h3
            cases h3
            exact ⟨π, hmt⟩
          · split at h
            · injection h with h1 h2
              injection h1 with h3
              cases h3
            · split at h
              · injection h with h1 h2
                injection h1 with h3
                cases h3
                exact ⟨π, hmt⟩
              · exact ih (fuelRest + 1) (by omega) _ _ _ _ _ _ h

theorem min_one_tree_endpoints (sd : EdgeDataMatrix Int) (es : EdgeDataMatrix EdgeState)
    (π : List Int) (t : List UnEdge) (h : min_one_tree sd es π = some t) :
    ∀ e ∈ t, e.efrom < sd.dimension ∧ e.eto < sd.dimension := by
  obtain ⟨hlen, hcnt, tree, a, b, ht, htl, ha1, ha2, hb1, hb2, hab, hB, hreach⟩ :=
    min_one_tree_struct sd es π t h
  intro e he
  rw [ht] at he
  rcases List.mem_append.mp he with h1 | h2
  · obtain ⟨e1, e2, e3, e4, e5⟩ := hB e h1
    omega
  · rcases (by simpa using h2 : e = (⟨0, a⟩ : UnEdge) ∨ e = (⟨0, b⟩ : UnEdge)) with rfl | rfl
    · dsimp only
      exact ⟨by omega, by omega⟩
    · dsimp only
      exact ⟨by omega, by omega⟩

/-- **C3 (amended).** For every call to `explore_node` that returns, the
edge-state matrix and the fixed-degree counters hold the same values after
the call as immediately before it (for a well-formed symmetric state
matrix); the node-penalty array, in contrast, may be left changed. -/
theorem explore_node_restores_states_and_degrees (d sd : EdgeDataMatrix Int) :
    ∀ (fuel : Nat) (st : BBState) (lim : Option Nat) (dep : Nat),
      st.edge_states.dimension = sd.dimension →
      st.edge_states.data.length = sd.dimension * sd.dimension →
      symmStates st.edge_states →
      (explore_node d sd fuel st lim dep).edge_states = st.edge_states ∧
      (explore_node d sd fuel st lim dep).fixed_degrees = st.fixed_degrees := by
  intro fuel
  induction fuel with
  | zero => intro st lim dep _ _ _; exact ⟨rfl, rfl⟩
  | succ fuel ih =>
    intro st lim dep hdim hlen hsym
    have hlen' : st.edge_states.data.length =
        st.edge_states.dimension * st.edge_states.dimension := by
      rw [hdim]; exact hlen
    rw [explore_node.eq_def]
    dsimp only
    split
    · exact ⟨rfl, rfl⟩
    · split
      · exact ⟨rfl, rfl⟩
      · exact ⟨rfl, rfl⟩
      · next lb tree hres =>
        split
        · exact ⟨rfl, rfl⟩
        · split
          · exact ⟨rfl, rfl⟩
          · next be hbe =>
            -- provenance of the branching edge
            have hfull : held_karp_lower_bound d sd st.edge_states st.node_penalties
                st.upper_bound (if dep = 0 then INITIAL_MAX_ITERATIONS else MAX_ITERATIONS)
                (if dep = 0 then INITIAL_BETA else BETA) =
                (some (LowerBoundOutput.LowerBound lb tree),
                  (held_karp_lower_bound d sd st.edge_states st.node_penalties
                    st.upper_bound
                    (if dep = 0 then INITIAL_MAX_ITERATIONS else MAX_ITERATIONS)
                    (if dep = 0 then INITIAL_BETA else BETA)).2) := by
              rw [← hres]
            rw [held_karp_lower_bound] at hfull
            obtain ⟨π₀, hmt⟩ := hklbAux_lb_tree d sd st.edge_states _ _ _ _ _ _ _ _ _ _ hfull
            obtain ⟨hmem, hav1⟩ := edge_to_branch_on_spec sd st.edge_states _ tree be hbe
            obtain ⟨hfd, htd⟩ := min_one_tree_endpoints sd st.edge_states π₀ tree hmt be hmem
            have hf : be.efrom < st.edge_states.dimension := by rw [hdim]; exact hfd
            have ht : be.eto < st.edge_states.dimension := by rw [hdim]; exact htd
            have hsy := hsym be.efrom (List.mem_range.mpr hf) be.eto (List.mem_range.mpr ht)
            have hav2 : st.edge_states.get_data be.eto be.efrom = EdgeState.Available := by
              rw [EdgeDataMatrix.get_data] at hav1 ⊢
              rw [← hsy]
              exact hav1
            set stA : BBState :=
              { edge_states :=
                  st.edge_states.set_data_symmetric be.efrom be.eto EdgeState.Excluded,
                node_penalties :=
                  (held_karp_lower_bound d sd st.edge_states st.node_penalties st.upper_bound
                    (if dep = 0 then INITIAL_MAX_ITERATIONS else MAX_ITERATIONS)
                    (if dep = 0 then INITIAL_BETA else BETA)).2,
                fixed_degrees := st.fixed_degrees, upper_bound := st.upper_bound,
                best_tour := st.best_tour, bb_counter := st.bb_counter + 1 } with hstA
            have h1 := ih stA lim (dep + 1)
              (by rw [hstA]; exact hdim)
              (by rw [hstA]; dsimp only; rw [sds_length]; exact hlen)
              (by
                rw [hstA]
                exact symmStates_set_data_symmetric st.edge_states _ _ _ hlen' hf ht hsym)
            have hsA1 : stA.edge_states =
                st.edge_states.set_data_symmetric be.efrom be.eto EdgeState.Excluded := by
              rw [hstA]
            have hsA2 : stA.fixed_degrees = st.fixed_degrees := by rw [hstA]
            rw [hsA1, hsA2] at h1
            rw [h1.1, h1.2]
            rw [sds_restore st.edge_states be.efrom be.eto EdgeState.Excluded hlen' hf ht
              hav1 hav2]
            split
            · set stD : BBState :=
                { edge_states :=
                    st.edge_states.set_data_symmetric be.efrom be.eto EdgeState.Fixed,
                  node_penalties := (explore_node d sd fuel stA lim (dep + 1)).node_penalties,
                  fixed_degrees :=
                    (st.fixed_degrees.set be.efrom (st.fixed_degrees.getD be.efrom 0 + 1)).set
                      be.eto
                      ((st.fixed_degrees.set be.efrom
                        (st.fixed_degrees.getD be.efrom 0 + 1)).getD be.eto 0 + 1),
                  upper_bound := (explore_node d sd fuel stA lim (dep + 1)).upper_bound,
                  best_tour := (explore_node d sd fuel stA lim (dep + 1)).best_tour,
                  bb_counter := (explore_node d sd fuel stA lim (dep + 1)).bb_counter }
                with hstD
              have h2 := ih stD lim (dep + 1)
                (by rw [hstD]; exact hdim)
                (by rw [hstD]; dsimp only; rw [sds_length]; exact hlen)
                (by
                  rw [hstD]
                  exact symmStates_set_data_symmetric st.edge_states _ _ _ hlen' hf ht hsym)
              have hsD1 : stD.edge_states =
                  st.edge_states.set_data_symmetric be.efrom be.eto EdgeState.Fixed := by
                rw [hstD]
              have hsD2 : stD.fixed_degrees =
                  (st.fixed_degrees.set be.efrom (st.fixed_degrees.getD be.efrom 0 + 1)).set
                    be.eto
                    ((st.fixed_degrees.set be.efrom
                      (st.fixed_degrees.getD be.efrom 0 + 1)).getD be.eto 0 + 1) := by
                rw [hstD]
              rw [hsD1, hsD2] at h2
              rw [h2.1, h2.2]
              rw [sds_restore st.edge_states be.efrom be.eto EdgeState.Fixed hlen' hf ht
                hav1 hav2]
              rw [fd_restore st.fixed_degrees be.efrom be.eto]
              exact ⟨rfl, rfl⟩
            · exact ⟨rfl, rfl⟩

theorem explore_node_restores_states_and_degrees_witness :
    (explore_node starInstance starScaled 3 starState none 1).edge_states =
      starState.edge_states ∧
    (explore_node starInstance starScaled 3 starState none 1).fixed_degrees =
      starState.fixed_degrees :=
  explore_node_restores_states_and_degrees starInstance starScaled 3 starState none 1
    (by decide) (by decide) (by unfold symmStates; decide)

theorem one_tree_scan_minimality (es0 : List EdgeState) :
    ∀ (ps : List (Nat × Int)) (acc acc' : ZeroScanAcc),
      (∀ p ∈ ps, ScaledDistance.MIN ≤ p.2) →
      ScaledDistance.MIN ≤ acc.dist_cheapest_edge_a →
      acc.dist_cheapest_edge_a ≤ acc.dist_cheapest_edge_b →
      one_tree_scan es0 ps acc = some acc' →
      ScaledDistance.MIN ≤ acc'.dist_cheapest_edge_a ∧
      acc'.dist_cheapest_edge_a ≤ acc'.dist_cheapest_edge_b ∧
      acc'.dist_cheapest_edge_b ≤ acc.dist_cheapest_edge_b ∧
      (acc.dist_cheapest_edge_a = ScaledDistance.MIN →
        acc'.dist_cheapest_edge_a = ScaledDistance.MIN) ∧
      (∀ v, acc.cheapest_neighbor_a = some v →
        acc'.cheapest_neighbor_a = some v ∨ acc'.cheapest_neighbor_b = some v ∨
          acc'.dist_cheapest_edge_b ≤ acc.dist_cheapest_edge_a) ∧
      (∀ v, acc.cheapest_neighbor_b = some v →
        acc'.cheapest_neighbor_b = some v ∨
          acc'.dist_cheapest_edge_b ≤ acc.dist_cheapest_edge_b) ∧
      (∀ p ∈ ps, es0.getD p.1 default = EdgeState.Available →
        acc'.cheapest_neighbor_a = some p.1 ∨ acc'.cheapest_neighbor_b = some p.1 ∨
          acc'.dist_cheapest_edge_b ≤ p.2) ∧
      ((∃ p ∈ ps, es0.getD p.1 default = EdgeState.Fixed) →
        acc'.dist_cheapest_edge_a = ScaledDistance.MIN) := by
  intro ps
  induction ps with
  | nil =>
    intro acc acc' _ h1 h2 hrun
    simp only [one_tree_scan] at hrun
    cases hrun
    refine ⟨h1, h2, le_refl _, fun h => h, fun v hv => Or.inl hv, fun v hv => Or.inl hv,
      by simp, by simp⟩
  | cons p rest ih =>
    obtain ⟨x, dd⟩ := p
    intro acc acc' hmin h1 h2 hrun
    have hmin' : ∀ p ∈ rest, ScaledDistance.MIN ≤ p.2 := by
      intro p hp
      exact hmin p (List.mem_cons_of_mem _ hp)
    have hddmin : ScaledDistance.MIN ≤ dd := hmin (x, dd) (List.mem_cons_self _ _)
    rw [one_tree_scan] at hrun
    rcases hstate : es0.getD x default with _ | _ | _ <;> rw [hstate] at hrun
    case Excluded =>
      obtain ⟨z1, z2, z3, z4, z5, z6, z7, z8⟩ := ih acc acc' hmin' h1 h2 hrun
      refine ⟨z1, z2, z3, z4, z5, z6, ?_, ?_⟩
      · intro p hp hav
        rcases List.mem_cons.mp hp with rfl | hp'
        · rw [hstate] at hav
          cases hav
        · exact z7 p hp' hav
      · rintro ⟨p, hp, hfx⟩
        rcases List.mem_cons.mp hp with rfl | hp'
        · rw [hstate] at hfx
          cases hfx
        · exact z8 ⟨p, hp', hfx⟩
    case Available =>
      by_cases hlt1 : dd < acc.dist_cheapest_edge_a
      · rw [if_pos hlt1] at hrun
        obtain ⟨z1, z2, z3, z4, z5, z6, z7, z8⟩ := ih
          ⟨dd, acc.dist_cheapest_edge_a, some x, acc.cheapest_neighbor_a⟩ acc' hmin'
          hddmin (by dsimp only; omega) hrun
        refine ⟨z1, z2, le_trans z3 h2, fun h => z4 (by dsimp only; omega), ?_, ?_, ?_,
          (by
            rintro ⟨p, hp, hfx⟩
            rcases List.mem_cons.mp hp with heq | hp'
            · have hx : p.1 = x := by rw [heq]
              rw [hx, hstate] at hfx
              cases hfx
            · exact z8 ⟨p, hp', hfx⟩)⟩
        · intro v hv
          rcases z6 v (by dsimp only; exact hv) with h | h
          · exact Or.inr (Or.inl h)
          · exact Or.inr (Or.inr h)
        · intro v hv
          exact Or.inr (le_trans z3 h2)
        · intro p hp hav
          rcases List.mem_cons.mp hp with heq | hp'
          · have hx : p.1 = x := by rw [heq]
            have hd : p.2 = dd := by rw [heq]
            rw [hx, hd]
            rcases z5 x rfl with h | h | h
            · exact Or.inl h
            · exact Or.inr (Or.inl h)
            · exact Or.inr (Or.inr h)
          · exact z7 p hp' hav
      · rw [if_neg hlt1] at hrun
        by_cases hlt2 : dd < acc.dist_cheapest_edge_b
        · rw [if_pos hlt2] at hrun
          obtain ⟨z1, z2, z3, z4, z5, z6, z7, z8⟩ := ih
            { acc with dist_cheapest_edge_b := dd, cheapest_neighbor_b := some x } acc' hmin'
            h1 (by dsimp only; omega) hrun
          refine ⟨z1, z2, le_trans z3 (le_of_lt hlt2), z4, ?_, ?_, ?_,
            (by
            rintro ⟨p, hp, hfx⟩
            rcases List.mem_cons.mp hp with heq | hp'
            · have hx : p.1 = x := by rw [heq]
              rw [hx, hstate] at hfx
              cases hfx
            · exact z8 ⟨p, hp', hfx⟩)⟩
          · intro v hv
            rcases z5 v hv with h | h | h
            · exact Or.inl h
            · exact Or.inr (Or.inl h)
            · exact Or.inr (Or.inr h)
          · intro v hv
            exact Or.inr (le_trans z3 (le_of_lt hlt2))
          · intro p hp hav
            rcases List.mem_cons.mp hp with heq | hp'
            · have hx : p.1 = x := by rw [heq]
              have hd : p.2 = dd := by rw [heq]
              rw [hx, hd]
              rcases z6 x rfl with h | h
              · exact Or.inr (Or.inl h)
              · exact Or.inr (Or.inr h)
            · exact z7 p hp' hav
        · rw [if_neg hlt2] at hrun
          obtain ⟨z1, z2, z3, z4, z5, z6, z7, z8⟩ := ih acc acc' hmin' h1 h2 hrun
          refine ⟨z1, z2, z3, z4, z5, z6, ?_,
            (by
            rintro ⟨p, hp, hfx⟩
            rcases List.mem_cons.mp hp with heq | hp'
            · have hx : p.1 = x := by rw [heq]
              rw [hx, hstate] at hfx
              cases hfx
            · exact z8 ⟨p, hp', hfx⟩)⟩
          intro p hp hav
          rcases List.mem_cons.mp hp with heq | hp'
          · have hd : p.2 = dd := by rw [heq]
            rw [hd]
            exact Or.inr (Or.inr (le_trans z3 (by omega)))
          · exact z7 p hp' hav
    case Fixed =>
      by_cases hbmin : acc.dist_cheapest_edge_b = ScaledDistance.MIN
      · rw [if_pos hbmin] at hrun
        cases hrun
      · rw [if_neg hbmin] at hrun
        obtain ⟨z1, z2, z3, z4, z5, z6, z7, z8⟩ := ih
          ⟨ScaledDistance.MIN, acc.dist_cheapest_edge_a, some x, acc.cheapest_neighbor_a⟩
          acc' hmin' (le_refl _) h1 hrun
        refine ⟨z1, z2, le_trans z3 h2, fun _ => z4 rfl, ?_, ?_, ?_, fun _ => z4 rfl⟩
        · intro v hv
          rcases z6 v (by dsimp only; exact hv) with h | h
          · exact Or.inr (Or.inl h)
          · exact Or.inr (Or.inr h)
        · intro v hv
          exact Or.inr (le_trans z3 h2)
        · intro p hp hav
          rcases List.mem_cons.mp hp with heq | hp'
          · have hx : p.1 = x := by rw [heq]
            rw [hx, hstate] at hav
            cases hav
          · exact z7 p hp' hav

/-- **C5 (amended).** The node-0 scan of `min_one_tree` keeps the two
cheapest *raw* scaled distances `dA ≤ dB` to Available neighbours (no
penalty is subtracted on this row): on success every scanned Available
neighbour is either one of the two chosen ones or at raw distance at
least `dB`; a scanned Fixed neighbour forces `dA = MIN`; the result is
the spanning tree over `1 .. n-1` followed by the two node-0 edges. -/
theorem min_one_tree_scan_characterization (sd : EdgeDataMatrix Int)
    (es : EdgeDataMatrix EdgeState) (π : List Int) (t : List UnEdge)
    (hmin : ∀ x ∈ sd.data, ScaledDistance.MIN ≤ x)
    (hrun : min_one_tree sd es π = some t) :
    ∃ tree acc,
      min_spanning_tree (split_first_row sd).2 (split_first_row es).2 π = some tree ∧
      one_tree_scan (split_first_row es).1 ((split_first_row sd).1.enum.drop 1)
        ⟨ScaledDistance.MAX, ScaledDistance.MAX, none, none⟩ = some acc ∧
      ∃ a b, acc.cheapest_neighbor_a = some a ∧ acc.cheapest_neighbor_b = some b ∧
        t = tree ++ [⟨0, a⟩, ⟨0, b⟩] ∧
        acc.dist_cheapest_edge_a ≤ acc.dist_cheapest_edge_b ∧
        (∀ p ∈ (split_first_row sd).1.enum.drop 1,
          (split_first_row es).1.getD p.1 default = EdgeState.Available →
          acc.cheapest_neighbor_a = some p.1 ∨ acc.cheapest_neighbor_b = some p.1 ∨
            acc.dist_cheapest_edge_b ≤ p.2) ∧
        ((∃ p ∈ (split_first_row sd).1.enum.drop 1,
          (split_first_row es).1.getD p.1 default = EdgeState.Fixed) →
          acc.dist_cheapest_edge_a = ScaledDistance.MIN) := by
  have hpairs : ∀ p ∈ ((split_first_row sd).1.enum.drop 1), ScaledDistance.MIN ≤ p.2 := by
    intro p hp
    have hp' := List.mem_of_mem_drop hp
    obtain ⟨i, hi, hval⟩ := List.mem_iff_getElem.mp hp'
    rw [List.getElem_enum] at hval
    have hii : i < (split_first_row sd).1.length := by simpa using hi
    have hp2 : p.2 = (split_first_row sd).1.getD i 0 := by
      rw [getD_eq_getElemD _ _ _ hii, ← hval]
    rw [hp2, getD_eq_getElemD _ _ _ hii]
    apply hmin
    exact List.mem_of_mem_take (List.getElem_mem _)
  rw [min_one_tree] at hrun
  cases hmst : min_spanning_tree (split_first_row sd).2 (split_first_row es).2 π with
  | none => rw [hmst] at hrun; cases hrun
  | some tree =>
    rw [hmst] at hrun
    cases hscan : one_tree_scan (split_first_row es).1 ((split_first_row sd).1.enum.drop 1)
        ⟨ScaledDistance.MAX, ScaledDistance.MAX, none, none⟩ with
    | none => rw [hscan] at hrun; cases hrun
    | some acc =>
      rw [hscan] at hrun
      dsimp only at hrun
      obtain ⟨z1, z2, z3, z4, z5, z6, z7, z8⟩ := one_tree_scan_minimality
        (split_first_row es).1 ((split_first_row sd).1.enum.drop 1)
        ⟨ScaledDistance.MAX, ScaledDistance.MAX, none, none⟩ acc hpairs
        (by decide) (by decide) hscan
      cases hnb : acc.cheapest_neighbor_b with
      | none => rw [hnb] at hrun; cases hrun
      | some b =>
        cases hna : acc.cheapest_neighbor_a with
        | none => rw [hnb, hna] at hrun; cases hrun
        | some a =>
          rw [hnb, hna] at hrun
          have ht : t = tree ++ [⟨0, a⟩, ⟨0, b⟩] := by cases hrun; rfl
          exact ⟨tree, acc, rfl, rfl, a, b, hna, hnb, ht, z2, z7, z8⟩

theorem min_one_tree_scan_characterization_witness :
    (∀ x ∈ rowPenaltyScaled.data, ScaledDistance.MIN ≤ x) ∧
    (∃ tree acc,
      min_spanning_tree (split_first_row rowPenaltyScaled).2
        (split_first_row fourNodeStates).2 rowPenalties = some tree ∧
      one_tree_scan (split_first_row fourNodeStates).1
        ((split_first_row rowPenaltyScaled).1.enum.drop 1)
        ⟨ScaledDistance.MAX, ScaledDistance.MAX, none, none⟩ = some acc ∧
      ∃ a b, acc.cheapest_neighbor_a = some a ∧ acc.cheapest_neighbor_b = some b ∧
        [⟨1, 3⟩, ⟨3, 2⟩, ⟨0, 1⟩, (⟨0, 2⟩ : UnEdge)] = tree ++ [⟨0, a⟩, ⟨0, b⟩] ∧
        acc.dist_cheapest_edge_a ≤ acc.dist_cheapest_edge_b ∧
        (∀ p ∈ (split_first_row rowPenaltyScaled).1.enum.drop 1,
          (split_first_row fourNodeStates).1.getD p.1 default = EdgeState.Available →
          acc.cheapest_neighbor_a = some p.1 ∨ acc.cheapest_neighbor_b = some p.1 ∨
            acc.dist_cheapest_edge_b ≤ p.2) ∧
        ((∃ p ∈ (split_first_row rowPenaltyScaled).1.enum.drop 1,
          (split_first_row fourNodeStates).1.getD p.1 default = EdgeState.Fixed) →
          acc.dist_cheapest_edge_a = ScaledDistance.MIN)) :=
  ⟨by decide,
    min_one_tree_scan_characterization rowPenaltyScaled fourNodeStates rowPenalties
      [⟨1, 3⟩, ⟨3, 2⟩, ⟨0, 1⟩, ⟨0, 2⟩] (by decide) (by decide)⟩

theorem cycAdj_mem (c : List Nat) (u v : Nat) (h : cycAdj c u v) : u ∈ c ∧ v ∈ c := by
  obtain ⟨i, hi, hor⟩ := h
  rw [List.mem_range] at hi
  have h1 : c.getD i 0 ∈ c := by
    rw [getD_eq_getElemD _ _ _ hi]
    exact List.getElem_mem _
  have hlen : 0 < c.length := by omega
  have hi2 : (i + 1) % c.length < c.length := Nat.mod_lt _ hlen
  have h2 : c.getD ((i + 1) % c.length) 0 ∈ c := by
    rw [getD_eq_getElemD _ _ _ hi2]
    exact List.getElem_mem _
  rcases hor with ⟨ha, hb⟩ | ⟨ha, hb⟩
  · rw [ha] at h1; rw [hb] at h2; exact ⟨h1, h2⟩
  · rw [ha] at h1; rw [hb] at h2; exact ⟨h2, h1⟩

theorem cycAdj_fixed (esz : EdgeDataMatrixZeroRemoved EdgeState) (N : Nat) (c : List Nat)
    (hcyc : fixedCycle esz N c) (u v : Nat) (h : cycAdj c u v) :
    esz.adj u v = EdgeState.Fixed ∧ esz.adj v u = EdgeState.Fixed := by
  obtain ⟨_, _, _, hfix⟩ := hcyc
  obtain ⟨i, hi, hor⟩ := h
  obtain ⟨hd1, hd2⟩ := hfix i hi
  rcases hor with ⟨ha, hb⟩ | ⟨ha, hb⟩
  · rw [ha, hb] at hd1 hd2
    exact ⟨hd1, hd2⟩
  · rw [ha, hb] at hd1 hd2
    exact ⟨hd2, hd1⟩

theorem cyc_two_neighbors (c : List Nat) (hnd : c.Nodup) (hlen : 3 ≤ c.length)
    (v : Nat) (hv : v ∈ c) :
    ∃ x y, x ≠ y ∧ x ≠ v ∧ y ≠ v ∧ cycAdj c x v ∧ cycAdj c y v := by
  obtain ⟨j, hj, hval⟩ := List.mem_iff_getElem.mp hv
  have hinj := List.nodup_iff_injective_getElem.mp hnd
  have hlen0 : 0 < c.length := by omega
  -- previous and next indices on the cycle
  set p := if j = 0 then c.length - 1 else j - 1 with hp
  have hplt : p < c.length := by
    rw [hp]; split <;> omega
  have hpsucc : (p + 1) % c.length = j := by
    rw [hp]
    split
    · next h0 =>
      subst h0
      rw [Nat.sub_add_cancel (by omega), Nat.mod_self]
    · next h0 =>
      rw [Nat.sub_add_cancel (by omega), Nat.mod_eq_of_lt hj]
  set n := (j + 1) % c.length with hn
  have hnlt : n < c.length := Nat.mod_lt _ hlen0
  have hpj : p ≠ j := by
    rw [hp]; split <;> omega
  have hnj : n ≠ j := by
    rw [hn]
    intro h
    rcases Nat.lt_or_ge (j + 1) c.length with h1 | h1
    · rw [Nat.mod_eq_of_lt h1] at h
      omega
    · have hj1 : j + 1 = c.length := by omega
      rw [hj1, Nat.mod_self] at h
      omega
  have hpn : p ≠ n := by
    intro h
    have hsucc2 : (n + 1) % c.length = j := by rw [← h]; exact hpsucc
    rcases Nat.lt_or_ge (j + 1) c.length with h1 | h1
    · have hneq : n = j + 1 := by rw [hn, Nat.mod_eq_of_lt h1]
      rw [hneq] at hsucc2
      rcases Nat.lt_or_ge (j + 1 + 1) c.length with h2 | h2
      · rw [Nat.mod_eq_of_lt h2] at hsucc2
        omega
      · have h3 : j + 1 + 1 = c.length := by omega
        rw [h3, Nat.mod_self] at hsucc2
        omega
    · have hj1 : j + 1 = c.length := by omega
      have hneq : n = 0 := by rw [hn, hj1, Nat.mod_self]
      rw [hneq, Nat.mod_eq_of_lt (by omega)] at hsucc2
      omega
  refine ⟨c.getD p 0, c.getD n 0, ?_, ?_, ?_, ?_, ?_⟩
  · intro h
    rw [getD_eq_getElemD _ _ _ hplt, getD_eq_getElemD _ _ _ hnlt] at h
    have := @hinj ⟨p, hplt⟩ ⟨n, hnlt⟩ h
    exact hpn (by simpa using this)
  · intro h
    rw [getD_eq_getElemD _ _ _ hplt, ← hval] at h
    have := @hinj ⟨p, hplt⟩ ⟨j, hj⟩ h
    exact hpj (by simpa using this)
  · intro h
    rw [getD_eq_getElemD _ _ _ hnlt, ← hval] at h
    have := @hinj ⟨n, hnlt⟩ ⟨j, hj⟩ h
    exact hnj (by simpa using this)
  · exact ⟨p, List.mem_range.mpr hplt, Or.inl ⟨rfl, by
      rw [hpsucc, getD_eq_getElemD _ _ _ hj, hval]⟩⟩
  · exact ⟨j, List.mem_range.mpr hj, Or.inr ⟨by
      rw [getD_eq_getElemD _ _ _ hj, hval], rfl⟩⟩

theorem mstLoop_fixed_cycle (sdz : EdgeDataMatrixZeroRemoved Int)
    (esz : EdgeDataMatrixZeroRemoved EdgeState) (π : List Int) (N : Nat) (c : List Nat)
    (hcyc : fixedCycle esz N c) :
    ∀ (k : Nat) (rem : List Nat) (bc : List Int) (bp : List Nat) (curr : Nat)
      (tree : List UnEdge) (A : Finset ℕ),
      rem.length = k →
      rem.Nodup →
      (∀ x ∈ rem, 2 ≤ x ∧ x ≤ N) →
      (∀ x ∈ rem, x ∉ A) →
      curr ∈ A →
      bc.length = N + 1 →
      bp.length = N + 1 →
      (∀ v ∈ rem, (∃ u ∈ A, u ≠ curr ∧ cycAdj c u v) →
        bc.getD v 0 = ScaledDistance.MIN) →
      (∀ v ∈ rem, ∀ u w, u ∈ A → w ∈ A → u ≠ curr → w ≠ curr →
        cycAdj c u v → cycAdj c w v → u = w) →
      (∀ x ∈ c, x ∈ A ∨ x ∈ rem) →
      (∃ x ∈ c, x ∈ rem) →
      mstLoop sdz esz π k rem bc bp curr tree = none := by
  have hcnd := hcyc.1
  have hclen := hcyc.2.1
  intro k
  induction k with
  | zero =>
    intro rem bc bp curr tree A hk _ _ _ _ _ _ _ _ _ h5
    have hnil : rem = [] := List.eq_nil_of_length_eq_zero hk
    subst hnil
    obtain ⟨x, _, hxrem⟩ := h5
    exact absurd hxrem (List.not_mem_nil x)
  | succ k ih =>
    intro rem bc bp curr tree A hk hnd hremB hdisj hcurrA hbc hbp hI1 hI3 hI4 hI5
    rw [mstLoop]
    cases hscan : mstScanGo sdz esz π curr rem 0 ⟨bc, bp, ScaledDistance.MAX, none⟩ with
    | none => rfl
    | some acc =>
      dsimp only
      cases hchn : acc.cheapestNode with
      | none => rfl
      | some pair =>
        obtain ⟨index, cheapest⟩ := pair
        obtain ⟨l1, l2, hd, hs, hf, hc⟩ := mstScanGo_spec sdz esz π curr rem 0
          ⟨bc, bp, ScaledDistance.MAX, none⟩ acc hnd (by dsimp only; omega)
          (by intro v hv; dsimp only; have := hremB v hv; omega)
          (le_refl _) (by simp) hscan
        dsimp only at l1 l2 hd hs hf hc
        obtain ⟨hprov, hltmax⟩ := hc index cheapest hchn
        rcases hprov with h | ⟨j, hj, hij, hjv⟩
        · cases h
        · have hijj : index = j := by omega
          subst hijj
          have hidx : index < rem.length := hj
          have hmem : cheapest ∈ rem := by
            rw [← hjv, getD_eq_getElemD _ _ _ hidx]
            exact List.getElem_mem _
          -- the next remaining cycle node
          have hI5' : ∃ x ∈ c, x ∈ swapRemove rem index := by
            by_cases hex : ∃ x ∈ c, x ∈ rem ∧ x ≠ cheapest
            · obtain ⟨x, hxc, hxrem, hxne⟩ := hex
              refine ⟨x, hxc, ?_⟩
              apply (swapRemove_mem rem index x hnd hidx).mpr
              refine ⟨hxrem, ?_⟩
              simp only [show (default : ℕ) = 0 from rfl]
              rw [hjv]
              exact hxne
            · push_neg at hex
              obtain ⟨z, hzc, hzrem⟩ := hI5
              have hzch : z = cheapest := hex z hzc hzrem
              have hchc : cheapest ∈ c := hzch ▸ hzc
              obtain ⟨x, y, hxy, hxv, hyv, hax, hay⟩ :=
                cyc_two_neighbors c hcnd hclen cheapest hchc
              have hxc : x ∈ c := (cycAdj_mem c x cheapest hax).1
              have hyc : y ∈ c := (cycAdj_mem c y cheapest hay).1
              have hxA : x ∈ A := by
                rcases hI4 x hxc with h | h
                · exact h
                · exact absurd (hex x hxc h) hxv
              have hyA : y ∈ A := by
                rcases hI4 y hyc with h | h
                · exact h
                · exact absurd (hex y hyc h) hyv
              by_cases hxcurr : x = curr
              · have hyne : y ≠ curr := fun h => hxy (hxcurr.trans h.symm)
                have hmin := hI1 cheapest hmem ⟨y, hyA, hyne, hay⟩
                have hfx := cycAdj_fixed esz N c hcyc x cheapest hax
                rw [hxcurr] at hfx
                exact absurd hmin (hf cheapest hmem hfx.1).1
              · by_cases hycurr : y = curr
                · have hmin := hI1 cheapest hmem ⟨x, hxA, hxcurr, hax⟩
                  have hfy := cycAdj_fixed esz N c hcyc y cheapest hay
                  rw [hycurr] at hfy
                  exact absurd hmin (hf cheapest hmem hfy.1).1
                · exact absurd (hI3 cheapest hmem x y hxA hyA hxcurr hycurr hax hay) hxy
          have hcheB := hremB cheapest hmem
          exact ih (swapRemove rem index) acc.bestCost acc.bestPred cheapest
            (tree ++ [⟨acc.bestPred.getD cheapest 0, cheapest⟩]) (insert cheapest A)
            (by rw [swapRemove_length]; omega)
            (swapRemove_nodup rem index hnd hidx)
            (fun x hx => hremB x ((swapRemove_mem rem index x hnd hidx).mp hx).1)
            (by
              intro x hx
              obtain ⟨hx1, hx2⟩ := (swapRemove_mem rem index x hnd hidx).mp hx
              simp only [show (default : ℕ) = 0 from rfl] at hx2
              rw [hjv] at hx2
              simp only [Finset.mem_insert]
              push_neg
              exact ⟨hx2, hdisj x hx1⟩)
            (Finset.mem_insert_self _ _)
            (by rw [l1]; exact hbc)
            (by rw [l2]; exact hbp)
            (by
              -- I1 preservation
              intro v hv ⟨u, huA, hune, hadj⟩
              have hvrem : v ∈ rem := ((swapRemove_mem rem index v hnd hidx).mp hv).1
              rcases Finset.mem_insert.mp huA with rfl | huA'
              · exact absurd rfl hune
              · by_cases hucurr : u = curr
                · subst hucurr
                  have hfx := cycAdj_fixed esz N c hcyc u v hadj
                  exact (hf v hvrem hfx.1).2
                · exact hs v (hI1 v hvrem ⟨u, huA', hucurr, hadj⟩)
              )
            (by
              -- I3 preservation
              intro v hv u w huA hwA hune hwne hadju hadjw
              have hvrem : v ∈ rem := ((swapRemove_mem rem index v hnd hidx).mp hv).1
              have huA' : u ∈ A := by
                rcases Finset.mem_insert.mp huA with rfl | h
                · exact absurd rfl hune
                · exact h
              have hwA' : w ∈ A := by
                rcases Finset.mem_insert.mp hwA with rfl | h
                · exact absurd rfl hwne
                · exact h
              by_cases hucurr : u = curr
              · by_cases hwcurr : w = curr
                · rw [hucurr, hwcurr]
                · have hmin := hI1 v hvrem ⟨w, hwA', hwcurr, hadjw⟩
                  have hfx := cycAdj_fixed esz N c hcyc u v hadju
                  rw [hucurr] at hfx
                  exact absurd hmin (hf v hvrem hfx.1).1
              · by_cases hwcurr : w = curr
                · have hmin := hI1 v hvrem ⟨u, huA', hucurr, hadju⟩
                  have hfx := cycAdj_fixed esz N c hcyc w v hadjw
                  rw [hwcurr] at hfx
                  exact absurd hmin (hf v hvrem hfx.1).1
                · exact hI3 v hvrem u w huA' hwA' hucurr hwcurr hadju hadjw
              )
            (by
              -- I4 preservation
              intro x hxc
              rcases hI4 x hxc with h | h
              · exact Or.inl (Finset.mem_insert_of_mem h)
              · by_cases hxch : x = cheapest
                · exact Or.inl (hxch ▸ Finset.mem_insert_self _ _)
                · refine Or.inr ((swapRemove_mem rem index x hnd hidx).mpr ⟨h, ?_⟩)
                  simp only [show (default : ℕ) = 0 from rfl]
                  rw [hjv]
                  exact hxch)
            hI5'

/-- **C4.** If the `Fixed` edges contain a cycle on the nodes processed by
the MST kernel (nodes `1 .. n-1` of the zero-removed view), then
`min_spanning_tree` returns `None`: each remaining node can absorb only one
`Fixed` edge from the scanned side (its best cost becomes `MIN`, which only
`Fixed` edges produce there), and the second `Fixed` edge into it triggers
the `best cost = MIN` failure check. -/
theorem fixed_cycle_mst_fails (sdz : EdgeDataMatrixZeroRemoved Int)
    (esz : EdgeDataMatrixZeroRemoved EdgeState) (π : List Int) (c : List Nat)
    (hcyc : fixedCycle esz sdz.dimension_adjusted c) :
    min_spanning_tree sdz esz π = none := by
  have hcnd := hcyc.1
  have hclen := hcyc.2.1
  have hcB := hcyc.2.2.1
  rw [min_spanning_tree]
  exact mstLoop_fixed_cycle sdz esz π sdz.dimension_adjusted c hcyc
    (sdz.dimension_adjusted - 1) (List.range' 2 (sdz.dimension_adjusted - 1))
    (List.replicate (sdz.dimension_adjusted + 1) ScaledDistance.MAX)
    (List.replicate (sdz.dimension_adjusted + 1) (sdz.dimension_adjusted + 1)) 1 [] {1}
    (by simp)
    (by apply List.nodup_range' <;> norm_num)
    (by
      intro x hx
      rw [List.mem_range'_1] at hx
      omega)
    (by
      intro x hx
      rw [List.mem_range'_1] at hx
      simp only [Finset.mem_singleton]
      omega)
    (Finset.mem_singleton_self 1)
    (by simp)
    (by simp)
    (by
      rintro v hv ⟨u, hu, hune, _⟩
      exact absurd (Finset.mem_singleton.mp hu) hune)
    (by
      intro v hv u w hu hw hun hwn _ _
      exact absurd (Finset.mem_singleton.mp hu) hun)
    (by
      intro x hxc
      have hxB := hcB x hxc
      by_cases hx1 : x = 1
      · exact Or.inl (by rw [hx1]; exact Finset.mem_singleton_self 1)
      · refine Or.inr ?_
        rw [List.mem_range'_1]
        omega)
    (by
      have h0lt : 0 < c.length := by omega
      have h1lt : 1 < c.length := by omega
      have hinj := List.nodup_iff_injective_getElem.mp hcnd
      have hne : c.getD 0 0 ≠ c.getD 1 0 := by
        rw [getD_eq_getElemD _ _ _ h0lt, getD_eq_getElemD _ _ _ h1lt]
        intro h
        have := @hinj ⟨0, h0lt⟩ ⟨1, h1lt⟩ h
        simp at this
      have hm0 : c.getD 0 0 ∈ c := by
        rw [getD_eq_getElemD _ _ _ h0lt]
        exact List.getElem_mem _
      have hm1 : c.getD 1 0 ∈ c := by
        rw [getD_eq_getElemD _ _ _ h1lt]
        exact List.getElem_mem _
      by_cases hx1 : c.getD 0 0 = 1
      · refine ⟨c.getD 1 0, hm1, ?_⟩
        have hB := hcB _ hm1
        rw [List.mem_range'_1]
        have : c.getD 1 0 ≠ 1 := fun h => hne (hx1.trans h.symm)
        omega
      · refine ⟨c.getD 0 0, hm0, ?_⟩
        have hB := hcB _ hm0
        rw [List.mem_range'_1]
        omega)

theorem fixed_cycle_mst_fails_witness :
    fixedCycle (split_first_row fixedTriangleStates).2
      ((split_first_row zeroScaled5).2).dimension_adjusted [1, 2, 3] ∧
    min_spanning_tree (split_first_row zeroScaled5).2 (split_first_row fixedTriangleStates).2
      [0, 0, 0, 0, 0] = none :=
  ⟨by unfold fixedCycle; decide,
    fixed_cycle_mst_fails (split_first_row zeroScaled5).2 (split_first_row fixedTriangleStates).2
      [0, 0, 0, 0, 0] [1, 2, 3] (by unfold fixedCycle; decide)⟩
